import Mathlib

/-!
Verification model of the `fts_rust_core` full-text search engine
(crate under src/blueprints/search/pkg/engine/fineweb/drivers/fts_rust/).

The Rust source is shallowly embedded as follows.

* Machine integers are modelled as `Nat`, with an explicit `% 2 ^ w`
  (wrapping) or `min _ (2 ^ w - 1)` (saturating) exactly where the source
  performs the corresponding operation.  Rust's plain `+= 1` on a `u16`
  wraps in release builds (and panics in debug builds); it is modelled as
  wrapping, and the distinction is noted at the relevant claims.
* Text is a list of byte values (`List Nat`, each `< 256`).
* `f32` BM25 scoring (`Bm25Params::score`, the idf formula and the
  `idf * (k1 + 1)` upper bound) is abstracted as a `ScoreModel` of
  `ℚ`-valued functions of the exact integer inputs the source feeds into
  the float pipeline.  Every claim proved here is either independent of
  the concrete scoring function or is witnessed at an explicitly chosen
  computable instance.
* Rust `HashMap`s whose iteration order is irrelevant to the modelled
  observations are represented as association lists in first-insertion
  order; where iteration order is observable (the `scored` map feeding
  the top-k heap) the enumeration is made an explicit parameter of the
  relevant definitions so that order-(in)dependence can itself be stated.
* `BinaryHeap<Reverse<(OrderedFloat<f32>, u32)>>` is observed by the
  source only through `push`, `pop` (minimum), `peek` (minimum), `len`
  and `into_sorted_vec`; it is modelled as a list kept sorted ascending
  in the lexicographic order on `(score, doc_id)`, which realises all
  five observations exactly.
-/

/-! ### Byte-level tokenizer (tokenizer.rs and the inline tokenizers in ultra.rs) -/

/-- Models `CHAR_TABLE` from `UltraProfile::tokenize_fast_hash_only` and
equally the `is_ascii_alphanumeric` / `to_ascii_lowercase` pair used by
`FastTokenizer`: ASCII letters map to their lowercase byte, digits map to
themselves, everything else maps to the sentinel `0`. -/
def charTable (b : Nat) : Nat :=
  if 97 ≤ b ∧ b ≤ 122 then b
  else if 65 ≤ b ∧ b ≤ 90 then b + 32
  else if 48 ≤ b ∧ b ≤ 57 then b
  else 0

/-- Scanning loop shared by `FastTokenizer::tokenize_with_freqs` and the
ultra tokenizers: alternate between skipping sentinel bytes and consuming a
run of alphanumeric bytes.  `acc` is the current run, reversed
(`acc ≠ []` plays the role of the `in_token` flag); each produced run is
already normalized through `charTable`. -/
def runsAux : List Nat → List Nat → List (List Nat)
  | [], acc => if acc.isEmpty then [] else [acc.reverse]
  | b :: rest, acc =>
    if charTable b = 0 then
      if acc.isEmpty then runsAux rest [] else acc.reverse :: runsAux rest []
    else runsAux rest (charTable b :: acc)

/-- The maximal alphanumeric runs of a byte string, lowercased. -/
def asciiRuns (text : List Nat) : List (List Nat) := runsAux text []

/-- FNV-1a over the normalized bytes of one token, as in
`tokenize_fast_hash_only` / `tokenize_fast`
(`hash ^= c; hash = hash.wrapping_mul(0x100000001b3)`), on `u64`. -/
def fnv (token : List Nat) : Nat :=
  token.foldl (fun h c => ((h ^^^ c) * 0x100000001b3) % 2 ^ 64) 0xcbf29ce484222325

/-- One step of `*freqs.entry(k).or_insert(0) += 1` on a `u16` counter:
a fresh key gets count 1, an existing count is incremented with wrapping
`u16` arithmetic (release-build semantics of the unchecked `+= 1`). -/
def bumpWrap {κ : Type} [DecidableEq κ] : List (κ × Nat) → κ → List (κ × Nat)
  | [], k => [(k, 1)]
  | (a, f) :: rest, k =>
    if a = k then (a, (f + 1) % 65536) :: rest else (a, f) :: bumpWrap rest k

/-- One step of `freqs.entry(h).and_modify(|f| *f = f.saturating_add(1)).or_insert(1)`
(ultra's `tokenize_fast`): the `u16` counter saturates at `65535`. -/
def bumpSat {κ : Type} [DecidableEq κ] : List (κ × Nat) → κ → List (κ × Nat)
  | [], k => [(k, 1)]
  | (a, f) :: rest, k =>
    if a = k then (a, min (f + 1) 65535) :: rest else (a, f) :: bumpSat rest k

/-- `FastTokenizer` (tokenizer.rs): the configurable length window. -/
structure FastTokenizer where
  min_length : Nat
  max_length : Nat

/-- `FastTokenizer::default()` — note `max_length` is 64 in the source. -/
def FastTokenizer.mkDefault : FastTokenizer := ⟨2, 64⟩

/-- The runs `FastTokenizer::tokenize_with_freqs` actually emits: maximal
alphanumeric runs whose byte length lies in `[min_length, max_length]`
(normalization does not change the length). -/
def FastTokenizer.tokenRuns (t : FastTokenizer) (text : List Nat) : List (List Nat) :=
  (asciiRuns text).filter fun r => t.min_length ≤ r.length ∧ r.length ≤ t.max_length

/-- `FastTokenizer::tokenize_with_freqs`: per-document term → `u16`
frequency map, keyed by the normalized token bytes.  The `u16` increment
is the unchecked `+= 1` (wrapping). -/
def FastTokenizer.tokenizeWithFreqs (t : FastTokenizer) (text : List Nat) :
    List (List Nat × Nat) :=
  (t.tokenRuns text).foldl bumpWrap []

/-- `FastTokenizer::tokenize_query`: the distinct tokens of the query
(`into_keys` of the frequency map). -/
def FastTokenizer.tokenizeQuery (t : FastTokenizer) (text : List Nat) : List (List Nat) :=
  (t.tokenizeWithFreqs text).map Prod.fst

/-- `UltraProfile::tokenize_fast_hash_only` (ingest path): token-hash →
`u16` frequency pairs; the length filter is the hard-coded `2..=32`, and
the `u16` increment is again the unchecked wrapping `+= 1`. -/
def ultraTokenizeHashOnly (text : List Nat) : List (Nat × Nat) :=
  (((asciiRuns text).filter fun r => 2 ≤ r.length ∧ r.length ≤ 32).map fnv).foldl bumpWrap []

/-- `UltraProfile::tokenize_fast` (query path): `(hash, freq, token)`
tuples with the saturating `u16` increment and the `2..=32` filter.  The
token string is carried as its normalized byte list. -/
def ultraTokenizeFast (text : List Nat) : List (Nat × Nat × List Nat) :=
  ((((asciiRuns text).filter fun r => 2 ≤ r.length ∧ r.length ≤ 32).map
      (fun r => (fnv r, r))).foldl
    (fun m k =>
      match m.find? (fun p => p.1 = k.1) with
      | some _ => m.map fun p => if p.1 = k.1 then (p.1, min (p.2.1 + 1) 65535, p.2.2) else p
      | none => m ++ [(k.1, 1, k.2)]) [])

/-- Bytes of a Lean string literal, for concrete ASCII inputs. -/
def strBytes (s : String) : List Nat := s.toList.map Char.toNat

example : asciiRuns (strBytes "Hello World hello") =
    [[104, 101, 108, 108, 111], [119, 111, 114, 108, 100], [104, 101, 108, 108, 111]] := by
  decide

example : FastTokenizer.mkDefault.tokenizeWithFreqs (strBytes "Hello World hello") =
    [([104, 101, 108, 108, 111], 2), ([119, 111, 114, 108, 100], 1)] := by
  decide

example : (ultraTokenizeHashOnly (strBytes "a ab abc")).length = 2 := by decide

/-! ### Scoring abstraction, result types, blocks and the top-k heap -/

/-- Abstraction of the `f32` scoring pipeline.  `bm25 tf df dl tl n`
models `Bm25Params::score(tf, df, dl, tl / n, n)` (the callers always pass
`avg_doc_len = total_doc_length / doc_count`); `idf n df` models the
`((n - df + 0.5) / (df + 0.5) + 1).ln()` expression that `commit` /
`build_blocks` store into a posting list; `k1p1` models the constant
`k1 + 1.0` of the `idf * (k1 + 1.0)` upper bound. -/
structure ScoreModel where
  bm25 : Nat → Nat → Nat → Nat → Nat → ℚ
  idf : Nat → Nat → ℚ
  k1p1 : ℚ

/-- A degenerate but perfectly legal scoring instance used to evaluate
claims whose content is independent of the concrete score values:
every match contributes its term frequency. -/
def tfModel : ScoreModel where
  bm25 := fun tf _ _ _ _ => (tf : ℚ)
  idf := fun _ _ => 1
  k1p1 := 1

/-- `SearchHit { id, score }` (result.rs); the optional text snippet is
always `None` in the modelled profiles and is omitted. -/
structure SearchHit where
  id : String
  score : ℚ
deriving DecidableEq, Repr

/-- `SearchResult` (result.rs) without the wall-clock `duration` field. -/
structure SearchResult where
  hits : List SearchHit
  total : Nat
  profile : String
deriving DecidableEq, Repr

/-- `SearchError` (result.rs). -/
inductive SearchError where
  | indexNotLoaded
  | notReady
  | invalidQuery (msg : String)
  | internal (msg : String)
deriving DecidableEq, Repr

instance {ε α : Type} [DecidableEq ε] [DecidableEq α] :
    DecidableEq (Except ε α) := fun
  | .ok a, .ok b => decidable_of_iff (a = b) (by simp)
  | .error a, .error b => decidable_of_iff (a = b) (by simp)
  | .ok _, .error _ => isFalse (by simp)
  | .error _, .ok _ => isFalse (by simp)

/-- Structural worker for `chunked`; the fuel argument is instantiated
with the list length, which bounds the recursion depth. -/
def chunkedFuel (n : Nat) : Nat → List α → List (List α)
  | _, [] => []
  | 0, a :: rest => [a :: rest]
  | f + 1, a :: rest => (a :: rest.take (n - 1)) :: chunkedFuel n f (rest.drop (n - 1))

/-- `slice::chunks n`: split a list into consecutive chunks of size `n`
(the last one possibly shorter).  `n` is instantiated with the positive
constants 512 (ultra) and 128 (bmw_simd / ensemble). -/
def chunked (n : Nat) (l : List α) : List (List α) := chunkedFuel n l.length l

theorem chunkedFuel_join (n : Nat) :
    ∀ (f : Nat) (l : List α), l.length ≤ f → (chunkedFuel n f l).flatten = l := by
  intro f
  induction f with
  | zero => intro l hl; cases l with
    | nil => simp [chunkedFuel]
    | cons a rest => simp at hl
  | succ g ih =>
    intro l hl
    cases l with
    | nil => simp [chunkedFuel]
    | cons a rest =>
      simp only [chunkedFuel, List.flatten_cons]
      rw [ih (rest.drop (n - 1)) (by simp at hl ⊢; omega)]
      simp [List.cons_append, List.take_append_drop]

theorem chunked_join (n : Nat) (l : List α) : (chunked n l).flatten = l :=
  chunkedFuel_join n l.length l le_rfl

/-- The order in which the top-k heap compares its elements: the
lexicographic order on `(score, doc_id)` induced by
`Reverse<(OrderedFloat<f32>, u32)>` (smaller score first, ties by smaller
doc id). -/
def entryLe (a b : ℚ × Nat) : Prop := a.1 < b.1 ∨ (a.1 = b.1 ∧ a.2 ≤ b.2)

instance : DecidableRel entryLe := fun a b => by unfold entryLe; infer_instance

instance : IsTotal (ℚ × Nat) entryLe := by
  constructor
  intro a b
  rcases lt_trichotomy a.1 b.1 with h | h | h
  · exact Or.inl (Or.inl h)
  · rcases Nat.le_total a.2 b.2 with h2 | h2
    · exact Or.inl (Or.inr ⟨h, h2⟩)
    · exact Or.inr (Or.inr ⟨h.symm, h2⟩)
  · exact Or.inr (Or.inl h)

instance : IsTrans (ℚ × Nat) entryLe := by
  constructor
  rintro a b c (h | ⟨h, h2⟩) (g | ⟨g, g2⟩)
  · exact Or.inl (h.trans g)
  · exact Or.inl (g ▸ h)
  · exact Or.inl (h ▸ g)
  · exact Or.inr ⟨h.trans g, h2.trans g2⟩

instance : IsAntisymm (ℚ × Nat) entryLe := by
  constructor
  rintro ⟨a1, a2⟩ ⟨b1, b2⟩ hab hba
  dsimp only [entryLe] at hab hba
  rcases hab with h | ⟨h, h2⟩
  · rcases hba with g | ⟨g, _⟩
    · exact absurd (h.trans g) (lt_irrefl _)
    · rw [g] at h; exact absurd h (lt_irrefl _)
  · rcases hba with g | ⟨g, g2⟩
    · rw [h] at g; exact absurd g (lt_irrefl _)
    · subst h; simp [le_antisymm h2 g2]

/-- One iteration of the top-k loop shared verbatim by
`UltraProfile::search_fast`, `BmwSimdProfile::search_bmw` and
`EnsembleProfile::search_ensemble`:

```
if top_k.len() < k { top_k.push(e); if top_k.len() == k { threshold = peek } }
else if score > threshold { top_k.pop(); top_k.push(e); threshold = peek }
```

State is `(heap, threshold)` with the heap as an ascending sorted list
(head = the heap's minimum); `pop` on an empty heap is the no-op `None`. -/
def topKStep (k : Nat) (st : List (ℚ × Nat) × ℚ) (ds : Nat × ℚ) : List (ℚ × Nat) × ℚ :=
  if st.1.length < k then
    let h := st.1.orderedInsert entryLe (ds.2, ds.1)
    (h, if h.length = k then ((h.headD (0, 0)).1) else st.2)
  else if st.2 < ds.2 then
    let h := (st.1.tail).orderedInsert entryLe (ds.2, ds.1)
    (h, (h.headD (0, 0)).1)
  else st

/-- The heap contents after streaming the whole `scored` enumeration into
the top-k loop (threshold starts at `0.0`, heap starts empty). -/
def buildTopK (k : Nat) (scored : List (Nat × ℚ)) : List (ℚ × Nat) :=
  (scored.foldl (topKStep k) ([], 0)).1

/-- Result extraction shared by the three profiles:
`into_sorted_vec` on the `Reverse`-wrapped heap yields the elements in
descending `(score, doc_id)` order (the reverse of the ascending heap
list), then `.skip(offset).take(limit)`, mapping to hits, and the final
`results.reverse()`. -/
def extractHits (heap : List (ℚ × Nat)) (limit offset : Nat) (mkId : Nat → String) :
    List SearchHit :=
  ((((heap.reverse).drop offset).take limit).map fun e =>
    SearchHit.mk (mkId e.2) e.1).reverse

/-- `*scored.entry(doc_id).or_insert(0.0) += score` on the association
list modelling the `scored` hash map (insertion order = first touch). -/
def addScore : List (Nat × ℚ) → Nat → ℚ → List (Nat × ℚ)
  | [], d, x => [(d, x)]
  | (a, s) :: rest, d, x =>
    if a = d then (a, s + x) :: rest else (a, s) :: addScore rest d x

example : buildTopK 1 [(0, 1), (1, 1)] = [(1, 0)] := by decide

example : buildTopK 2 [(0, 1), (1, 2)] = [(1, 0), (2, 1)] := by decide

/-! ### The ultra profile (ultra.rs) -/

/-- `Document` (document.rs): external id and text payload.  The `url`
and `metadata` fields are carried opaquely by the source and never
consulted by the engine, so they are omitted. -/
structure Doc where
  id : String
  text : List Nat
deriving DecidableEq

/-- Ultra's `PostingEntry { doc_id: u32, freq: u16 }`. -/
structure PostingEntry where
  docId : Nat
  freq : Nat
deriving DecidableEq, Repr

/-- Ultra's `PostingList { entries, block_maxes, df, idf }`. -/
structure UPostingList where
  entries : List PostingEntry
  blockMaxes : List ℚ
  df : Nat
  idf : ℚ
deriving DecidableEq, Repr

/-- The state of `UltraProfile`.  The source partitions the term
dictionary into 64 shards selected by `hash & SHARD_MASK`, with each
shard holding `term_dict: hash → index` into its own `postings` vector;
since the shard and the index are uniquely determined by the hash and
never change, the composite map `hash ↦ posting list` is represented
directly as one association list (new terms appended at the end).
`doc_id_hashes` stores the FNV hash of each external id (never read by
any modelled operation but kept for state fidelity).  `term_strings` is
only populated by the (unmodelled) legacy loader and stays empty. -/
structure UltraState where
  termDict : List (Nat × UPostingList)
  docLengths : List Nat
  docIdHashes : List Nat
  docIds : List String
  docCount : Nat
  totalDocLength : Nat
  blockMaxesDirty : Bool
deriving DecidableEq, Repr

/-- `UltraProfile::new()`. -/
def ultraEmpty : UltraState :=
  { termDict := [], docLengths := [], docIdHashes := [], docIds := []
    docCount := 0, totalDocLength := 0, blockMaxesDirty := true }

/-- Append one `(doc_id, freq)` entry to a posting list and bump `df`
(ultra `index_batch`, phase 3). -/
def postingAppend (pl : UPostingList) (e : PostingEntry) : UPostingList :=
  { pl with entries := pl.entries ++ [e], df := pl.df + 1 }

/-- Look up or create the posting list for `hash` and append the entry:
`PostingList::new()` starts with no entries, `df = 0`, `idf = 0.0`. -/
def dictAddEntry : List (Nat × UPostingList) → Nat → PostingEntry →
    List (Nat × UPostingList)
  | [], h, e => [(h, postingAppend ⟨[], [], 0, 0⟩ e)]
  | (a, pl) :: rest, h, e =>
    if a = h then (a, postingAppend pl e) :: rest
    else (a, pl) :: dictAddEntry rest h e

/-- Fan one tokenized document out into the dictionary (each of its
`(hash, freq)` pairs appends the entry `(doc_id, freq)`). -/
def applyDocTerms (dict : List (Nat × UPostingList)) (docId : Nat)
    (terms : List (Nat × Nat)) : List (Nat × UPostingList) :=
  terms.foldl (fun d t => dictAddEntry d t.1 ⟨docId, t.2⟩) dict

/-- Phase 3 of ultra `index_batch`: documents are processed with the
sequential ids `i, i+1, …` (the source computes `base_doc_id + idx` per
document and updates the 64 shards in parallel; per posting list the
effect is identical to this sequential left-to-right fan-out). -/
def applyDocsFrom (dict : List (Nat × UPostingList)) (i : Nat) :
    List Doc → List (Nat × UPostingList)
  | [] => dict
  | d :: rest =>
    applyDocsFrom (applyDocTerms dict i (ultraTokenizeHashOnly d.text)) (i + 1) rest

/-- Per-document length in ultra `index_batch`:
`doc_len: u32 = sum of u16 freqs` (wrapping `u32` sum), then
`.min(u16::MAX as u32) as u16`. -/
def ultraDocLen (terms : List (Nat × Nat)) : Nat :=
  min ((terms.foldl (fun a t => a + t.2) 0) % 2 ^ 32) 65535

/-- `UltraProfile::index_batch`. -/
def ultraIndexBatch (s : UltraState) (docs : List Doc) : UltraState :=
  if docs.isEmpty then s
  else
    let lens := docs.map fun d => ultraDocLen (ultraTokenizeHashOnly d.text)
    { termDict := applyDocsFrom s.termDict s.docCount docs
      docLengths := s.docLengths ++ lens
      docIdHashes := s.docIdHashes ++ docs.map fun d => fnv (strBytes d.id)
      docIds := s.docIds ++ docs.map Doc.id
      docCount := s.docCount + docs.length
      totalDocLength := s.totalDocLength + lens.sum
      blockMaxesDirty := true }

/-- `PostingList::compute_block_maxes`: chunk the entries into blocks of
512, and for each block fold `max_score.max(score)` from `0.0` over the
entries whose `doc_id` indexes into `doc_lengths`. -/
def computeBlockMaxesU (M : ScoreModel) (dls : List Nat) (tl n : Nat)
    (pl : UPostingList) : UPostingList :=
  { pl with
    blockMaxes := (chunked 512 pl.entries).map fun ch =>
      ch.foldl (fun m e =>
        if e.docId < dls.length then
          max m (M.bm25 e.freq pl.df (dls.getD e.docId 0) tl n)
        else m) 0 }

/-- `UltraProfile::compute_all_block_maxes`: early return when the dirty
flag is clear or when `doc_count == 0` (the flag is cleared only in the
recomputation branch). -/
def ultraComputeAllBlockMaxes (M : ScoreModel) (s : UltraState) : UltraState :=
  if ¬ s.blockMaxesDirty then s
  else if s.docCount = 0 then s
  else
    { s with
      termDict := s.termDict.map fun p =>
        (p.1, computeBlockMaxesU M s.docLengths s.totalDocLength s.docCount p.2)
      blockMaxesDirty := false }

/-- `UltraProfile::commit`: recompute every posting's `idf` from the
current `(doc_count, df)` when `doc_count > 0`, then refresh block maxes. -/
def ultraCommit (M : ScoreModel) (s : UltraState) : UltraState :=
  ultraComputeAllBlockMaxes M
    (if 0 < s.docCount then
      { s with termDict := s.termDict.map fun p => (p.1, { p.2 with idf := M.idf s.docCount p.2.df }) }
    else s)

/-- Association-list lookup modelling `shard.term_dict.get(hash)` plus
`shard.postings[idx]`. -/
def dictFind : List (Nat × UPostingList) → Nat → Option UPostingList
  | [], _ => none
  | (a, pl) :: rest, h => if a = h then some pl else dictFind rest h

/-- The block-scanning scoring loop of `search_fast`: for every block of
512 entries, skip it when its block max is below the threshold and the
heap is non-empty (during this loop the heap is still empty and the
threshold is `0.0`, so no block is ever skipped); otherwise accumulate the
BM25 contribution of every in-range entry into `scored`. -/
def scanPostingU (M : ScoreModel) (dls : List Nat) (tl n : Nat) (τ : ℚ)
    (topK : List (ℚ × Nat)) (scored : List (Nat × ℚ)) (pl : UPostingList) :
    List (Nat × ℚ) :=
  ((chunked 512 pl.entries).enum).foldl
    (fun sc bc =>
      if bc.1 < pl.blockMaxes.length ∧ pl.blockMaxes.getD bc.1 0 < τ ∧ ¬ topK.isEmpty then sc
      else
        bc.2.foldl (fun sc2 e =>
          if e.docId < dls.length then
            addScore sc2 e.docId (M.bm25 e.freq pl.df (dls.getD e.docId 0) tl n)
          else sc2) sc)
    scored

/-- `UltraProfile::search_fast`.  The source's opening call to
`compute_all_block_maxes` mutates the engine through interior mutability;
the refreshed values are read here locally (the persisted mutation is
idempotent and observationally equivalent, every later operation
recomputes the same values from the same statistics). -/
def ultraSearchFast (M : ScoreModel) (s0 : UltraState) (query : List Nat)
    (limit offset : Nat) : List SearchHit :=
  let s := ultraComputeAllBlockMaxes M s0
  if s.docCount = 0 then []
  else
    let queryTerms := ultraTokenizeFast query
    if queryTerms.isEmpty then []
    else
      let queryPostings := queryTerms.filterMap fun t =>
        (dictFind s.termDict t.1).map fun pl => (pl, pl.idf * M.k1p1)
      if queryPostings.isEmpty then []
      else
        let sorted := queryPostings.insertionSort fun a b => b.2 ≤ a.2
        let k := limit + offset
        let scored := sorted.foldl
          (fun sc p => scanPostingU M s.docLengths s.totalDocLength s.docCount 0 [] sc p.1) []
        let heap := buildTopK k scored
        extractHits heap limit offset fun d =>
          if d < s.docIds.length then s.docIds.getD d "" else "doc_" ++ toString d

/-- `UltraProfile::search` (the `SearchProfile` impl): always `Ok`, with
`total = hits.len()`. -/
def ultraSearch (M : ScoreModel) (s : UltraState) (query : List Nat)
    (limit offset : Nat) : Except SearchError SearchResult :=
  let hits := ultraSearchFast M s query limit offset
  Except.ok { hits := hits, total := hits.length, profile := "ultra" }

/-- `UltraProfile::doc_count`. -/
def ultraDocCount (s : UltraState) : Nat := s.docCount

/-- States reachable by the modelled ultra operations from a fresh
engine (`clear` restores exactly `ultraEmpty` and needs no constructor). -/
inductive UltraReach (M : ScoreModel) : UltraState → Prop
  | empty : UltraReach M ultraEmpty
  | batch {s} (docs : List Doc) : UltraReach M s → UltraReach M (ultraIndexBatch s docs)
  | commit {s} : UltraReach M s → UltraReach M (ultraCommit M s)

/-! ### The bmw_simd profile (bmw_simd.rs) -/

/-- `TermMeta { df, posting_offset, num_blocks, idf }`. -/
structure TermMeta where
  df : Nat
  postingOffset : Nat
  numBlocks : Nat
  idf : ℚ
deriving DecidableEq, Repr

/-- `PostingBlock { doc_ids, freqs, max_score }` (also used by ensemble;
bmw_simd and ensemble share the 128-entry block size). -/
structure PBlock where
  docIds : List Nat
  freqs : List Nat
  maxScore : ℚ
deriving DecidableEq, Repr

/-- One entry of bmw's `pending` vector:
`(ext_id, term → freq map, doc_len: u32)`. -/
structure PendingDoc where
  extId : String
  tfs : List (List Nat × Nat)
  len : Nat
deriving DecidableEq

/-- The state of `BmwSimdProfile`.  `term_dict: HashMap<String, TermMeta>`
is an association list keyed by the normalized token bytes; `insert`
overwrites an existing binding in place (`dictInsertOver`). -/
structure BmwState where
  termDict : List (List Nat × TermMeta)
  postings : List PBlock
  docLengths : List Nat
  docIds : List String
  docCount : Nat
  totalDocLength : Nat
  pending : List PendingDoc
deriving DecidableEq

/-- `BmwSimdProfile::new()`. -/
def bmwEmpty : BmwState :=
  { termDict := [], postings := [], docLengths := [], docIds := []
    docCount := 0, totalDocLength := 0, pending := [] }

/-- `HashMap::insert`: replace the binding if the key exists, otherwise
add it (new keys appended, preserving first-insertion enumeration). -/
def dictInsertOver : List (List Nat × TermMeta) → List Nat → TermMeta →
    List (List Nat × TermMeta)
  | [], t, m => [(t, m)]
  | (a, x) :: rest, t, m =>
    if a = t then (a, m) :: rest else (a, x) :: dictInsertOver rest t m

/-- Association lookup for `term_dict.get(term)`. -/
def metaFind : List (List Nat × TermMeta) → List Nat → Option TermMeta
  | [], _ => none
  | (a, m) :: rest, t => if a = t then some m else metaFind rest t

/-- `term_postings.entry(term).or_default().push(p)` on the association
list modelling the per-commit `HashMap<String, Vec<(u32, u16)>>`. -/
def pushPost : List (List Nat × List (Nat × Nat)) → List Nat → Nat × Nat →
    List (List Nat × List (Nat × Nat))
  | [], t, p => [(t, [p])]
  | (a, ps) :: rest, t, p =>
    if a = t then (a, ps ++ [p]) :: rest else (a, ps) :: pushPost rest t p

/-- Collect `term → [(doc_id, freq)]` over the pending documents, which
receive the sequential ids `i, i+1, …` (`base_doc_id + i` in the
source). -/
def termPostsFrom (acc : List (List Nat × List (Nat × Nat))) (i : Nat) :
    List PendingDoc → List (List Nat × List (Nat × Nat))
  | [] => acc
  | d :: rest =>
    termPostsFrom (d.tfs.foldl (fun a t => pushPost a t.1 (i, t.2)) acc) (i + 1) rest

/-- Build the posting blocks of one term from its `(doc_id, freq)` posts:
chunks of 128, each with its doc ids, freqs and the max BM25 score folded
from `0.0` (`doc_lengths[doc_id]` is in range by construction — the
source indexes without a bounds check). -/
def mkBlocks (M : ScoreModel) (dls : List Nat) (tl n df : Nat)
    (posts : List (Nat × Nat)) : List PBlock :=
  (chunked 128 posts).map fun ch =>
    { docIds := ch.map Prod.fst
      freqs := ch.map Prod.snd
      maxScore := ch.foldl (fun m p => max m (M.bm25 p.2 df (dls.getD p.1 0) tl n)) 0 }

/-- Insert one term of the current commit into `(term_dict, postings)`:
fresh blocks are appended to the global block vector and
`term_dict.insert` stores a brand-new `TermMeta` for the term —
overwriting (and orphaning the blocks of) any existing binding. -/
def addTermB (M : ScoreModel) (dls : List Nat) (tl n : Nat)
    (st : List (List Nat × TermMeta) × List PBlock)
    (tp : List Nat × List (Nat × Nat)) :
    List (List Nat × TermMeta) × List PBlock :=
  let df := tp.2.length
  let blocks := mkBlocks M dls tl n df tp.2
  (dictInsertOver st.1 tp.1
      { df := df, postingOffset := st.2.length, numBlocks := blocks.length
        idf := M.idf n df },
    st.2 ++ blocks)

/-- `BmwSimdProfile::build_blocks` (does not clear `pending`; `commit`
does that afterwards).  `doc_lengths` receives `doc_len as u16`, a
truncating cast, while `total_doc_length` accumulates the untruncated
`u32` value — exactly as in the source. -/
def buildBlocks (M : ScoreModel) (s : BmwState) : BmwState :=
  if s.pending.isEmpty then s
  else
    let dls := s.docLengths ++ s.pending.map fun d => d.len % 65536
    let tl := s.totalDocLength + (s.pending.map PendingDoc.len).sum
    let n := s.docCount + s.pending.length
    let dictAndPosts :=
      (termPostsFrom [] s.docCount s.pending).foldl (addTermB M dls tl n)
        (s.termDict, s.postings)
    { termDict := dictAndPosts.1
      postings := dictAndPosts.2
      docLengths := dls
      docIds := s.docIds ++ s.pending.map PendingDoc.extId
      docCount := n
      totalDocLength := tl
      pending := s.pending }

/-- `BmwSimdProfile::index_batch`: tokenize every document with the
default `FastTokenizer` and append to `pending`.
`doc_len: u32` is the wrapping sum of the `u16` frequencies. -/
def bmwIndexBatch (s : BmwState) (docs : List Doc) : BmwState :=
  { s with
    pending := s.pending ++ docs.map fun d =>
      let tfs := FastTokenizer.mkDefault.tokenizeWithFreqs d.text
      { extId := d.id, tfs := tfs
        len := (tfs.foldl (fun a t => a + t.2) 0) % 2 ^ 32 } }

/-- `BmwSimdProfile::commit`: `build_blocks()` then clear `pending`. -/
def bmwCommit (M : ScoreModel) (s : BmwState) : BmwState :=
  let s1 := buildBlocks M s
  { s1 with pending := [] }

/-- The block-scanning loop of `search_bmw`: for each query term's meta,
walk its `num_blocks` blocks starting at `posting_offset` (as with ultra,
during this loop the heap is empty and the threshold `0.0`, so the skip
never fires) and accumulate BM25 contributions into `scored`. -/
def scanMetaB (M : ScoreModel) (postings : List PBlock) (dls : List Nat)
    (tl n : Nat) (τ : ℚ) (topK : List (ℚ × Nat)) (scored : List (Nat × ℚ))
    (meta : TermMeta) : List (Nat × ℚ) :=
  (List.range meta.numBlocks).foldl
    (fun sc bi =>
      let block := postings.getD (meta.postingOffset + bi) ⟨[], [], 0⟩
      if block.maxScore < τ ∧ ¬ topK.isEmpty then sc
      else
        (block.docIds.enum).foldl (fun sc2 p =>
          addScore sc2 p.2
            (M.bm25 (block.freqs.getD p.1 0) meta.df (dls.getD p.2 0) tl n)) sc)
    scored

/-- `BmwSimdProfile::search_bmw`. -/
def bmwSearchHits (M : ScoreModel) (s : BmwState) (queryTerms : List (List Nat))
    (limit offset : Nat) : List SearchHit :=
  if s.docCount = 0 ∨ queryTerms.isEmpty then []
  else
    let queryInfo := queryTerms.filterMap fun t =>
      (metaFind s.termDict t).map fun m => (m, m.idf * M.k1p1)
    if queryInfo.isEmpty then []
    else
      let sorted := queryInfo.insertionSort fun a b => b.2 ≤ a.2
      let k := limit + offset
      let scored := sorted.foldl
        (fun sc p =>
          scanMetaB M s.postings s.docLengths s.totalDocLength s.docCount 0 [] sc p.1) []
      let heap := buildTopK k scored
      extractHits heap limit offset fun d => s.docIds.getD d ""

/-- `BmwSimdProfile::search`: tokenize the query, run `search_bmw`,
always `Ok` with `total = hits.len()`. -/
def bmwSearch (M : ScoreModel) (s : BmwState) (query : List Nat)
    (limit offset : Nat) : Except SearchError SearchResult :=
  let hits := bmwSearchHits M s (FastTokenizer.mkDefault.tokenizeQuery query) limit offset
  Except.ok { hits := hits, total := hits.length, profile := "bmw_simd" }

/-- `BmwSimdProfile::doc_count`. -/
def bmwDocCount (s : BmwState) : Nat := s.docCount

/-! ### The ensemble profile (ensemble.rs) -/

/-- `CompressedPosting { bitmap, blocks, df, idf }`; the roaring bitmap
is a set of doc ids, modelled as a `Finset`. -/
structure CPosting where
  bitmap : Finset Nat
  blocks : List PBlock
  df : Nat
  idf : ℚ
deriving DecidableEq

/-- The state of `EnsembleProfile`.  The source splits the posting store
into `term_offsets: HashMap<String, usize>` plus a `postings` vector;
an offset is assigned at term creation (`postings.len()` at that moment),
is unique per term and never changes, so the composite map
`term ↦ postings[term_offsets[term]]` is represented directly as one
association list.  The finite-state transducer (`fst_data` / `fst_map`)
is rebuilt deterministically from the sorted term set and is never
consulted by the modelled operations (`search_ensemble` looks terms up
in `term_offsets`); it is represented by the sorted key list it encodes. -/
structure EnsState where
  termPostings : List (List Nat × CPosting)
  docLengths : List Nat
  docIds : List String
  docCount : Nat
  totalDocLength : Nat
  pending : List PendingDoc
  fstDirty : Bool
  fstData : Option (List (List Nat))
deriving DecidableEq

/-- `EnsembleProfile::new()`. -/
def ensEmpty : EnsState :=
  { termPostings := [], docLengths := [], docIds := [], docCount := 0
    totalDocLength := 0, pending := [], fstDirty := true, fstData := none }

/-- Merge one term of the current commit into the posting store
(`build_index`): an existing posting gets `bitmap |= new`,
`blocks.extend(new)`, `df += new_df` and a recomputed idf; a fresh term
is inserted with its own blocks and idf. -/
def addTermE (M : ScoreModel) (dls : List Nat) (tl n : Nat)
    (dict : List (List Nat × CPosting)) (tp : List Nat × List (Nat × Nat)) :
    List (List Nat × CPosting) :=
  let df := tp.2.length
  let bitmap : Finset Nat := tp.2.foldl (fun bm p => insert p.1 bm) ∅
  let blocks := mkBlocks M dls tl n df tp.2
  match dict.find? fun p => p.1 = tp.1 with
  | some _ =>
    dict.map fun p =>
      if p.1 = tp.1 then
        (p.1, { bitmap := p.2.bitmap ∪ bitmap
                blocks := p.2.blocks ++ blocks
                df := p.2.df + df
                idf := M.idf n (p.2.df + df) })
      else p
  | none =>
    dict ++ [(tp.1, { bitmap := bitmap, blocks := blocks, df := df, idf := M.idf n df })]

/-- `EnsembleProfile::build_index` (does not clear `pending`).  Like bmw,
`doc_lengths` receives the truncating `as u16` cast while
`total_doc_length` accumulates the full value. -/
def buildIndexE (M : ScoreModel) (s : EnsState) : EnsState :=
  if s.pending.isEmpty then s
  else
    let dls := s.docLengths ++ s.pending.map fun d => d.len % 65536
    let tl := s.totalDocLength + (s.pending.map PendingDoc.len).sum
    let n := s.docCount + s.pending.length
    { s with
      termPostings :=
        (termPostsFrom [] s.docCount s.pending).foldl (addTermE M dls tl n) s.termPostings
      docLengths := dls
      docIds := s.docIds ++ s.pending.map PendingDoc.extId
      docCount := n
      totalDocLength := tl
      fstDirty := true }

/-- `EnsembleProfile::index_batch` — identical pipeline to bmw's. -/
def ensIndexBatch (s : EnsState) (docs : List Doc) : EnsState :=
  { s with
    pending := s.pending ++ docs.map fun d =>
      let tfs := FastTokenizer.mkDefault.tokenizeWithFreqs d.text
      { extId := d.id, tfs := tfs
        len := (tfs.foldl (fun a t => a + t.2) 0) % 2 ^ 32 } }

/-- `EnsembleProfile::commit`: `build_index()` then clear `pending`. -/
def ensCommit (M : ScoreModel) (s : EnsState) : EnsState :=
  let s1 := buildIndexE M s
  { s1 with pending := [] }

/-- Association lookup for ensemble's `term_offsets.get(term)` followed
by `postings[offset]`. -/
def cpostFind : List (List Nat × CPosting) → List Nat → Option CPosting
  | [], _ => none
  | (a, cp) :: rest, t => if a = t then some cp else cpostFind rest t

/-- The block-scanning loop of `search_ensemble` (same never-firing skip
condition as the other two profiles). -/
def scanPostingE (M : ScoreModel) (dls : List Nat) (tl n : Nat) (τ : ℚ)
    (topK : List (ℚ × Nat)) (scored : List (Nat × ℚ)) (cp : CPosting) :
    List (Nat × ℚ) :=
  cp.blocks.foldl
    (fun sc block =>
      if block.maxScore < τ ∧ ¬ topK.isEmpty then sc
      else
        (block.docIds.enum).foldl (fun sc2 p =>
          addScore sc2 p.2
            (M.bm25 (block.freqs.getD p.1 0) cp.df (dls.getD p.2 0) tl n)) sc)
    scored

/-- `EnsembleProfile::search_ensemble`.  Its opening `rebuild_fst()` only
refreshes the (unconsulted) transducer cache and has no effect on the
hits, so it is not replayed here. -/
def ensSearchHits (M : ScoreModel) (s : EnsState) (queryTerms : List (List Nat))
    (limit offset : Nat) : List SearchHit :=
  if s.docCount = 0 ∨ queryTerms.isEmpty then []
  else
    let queryPostings := queryTerms.filterMap fun t =>
      (cpostFind s.termPostings t).map fun cp => (cp, cp.idf * M.k1p1)
    if queryPostings.isEmpty then []
    else
      let sorted := queryPostings.insertionSort fun a b => b.2 ≤ a.2
      let k := limit + offset
      let scored := sorted.foldl
        (fun sc p => scanPostingE M s.docLengths s.totalDocLength s.docCount 0 [] sc p.1) []
      let heap := buildTopK k scored
      extractHits heap limit offset fun d => s.docIds.getD d ""

/-- `EnsembleProfile::search`: always `Ok` with `total = hits.len()`. -/
def ensSearch (M : ScoreModel) (s : EnsState) (query : List Nat)
    (limit offset : Nat) : Except SearchError SearchResult :=
  let hits := ensSearchHits M s (FastTokenizer.mkDefault.tokenizeQuery query) limit offset
  Except.ok { hits := hits, total := hits.length, profile := "ensemble" }

/-- `EnsembleProfile::doc_count`. -/
def ensDocCount (s : EnsState) : Nat := s.docCount

/-- States reachable by the modelled ensemble operations. -/
inductive EnsReach (M : ScoreModel) : EnsState → Prop
  | empty : EnsReach M ensEmpty
  | batch {s} (docs : List Doc) : EnsReach M s → EnsReach M (ensIndexBatch s docs)
  | commit {s} : EnsReach M s → EnsReach M (ensCommit M s)

/-! ### Basic state lemmas -/

theorem cabm_docCount (M : ScoreModel) (s : UltraState) :
    (ultraComputeAllBlockMaxes M s).docCount = s.docCount := by
  unfold ultraComputeAllBlockMaxes; split_ifs <;> rfl

theorem ultraCommit_docCount (M : ScoreModel) (s : UltraState) :
    (ultraCommit M s).docCount = s.docCount := by
  unfold ultraCommit; rw [cabm_docCount]; split_ifs <;> rfl

theorem ultraIndexBatch_docCount (s : UltraState) (docs : List Doc) :
    (ultraIndexBatch s docs).docCount = s.docCount + docs.length := by
  unfold ultraIndexBatch
  split_ifs with h
  · simp [List.isEmpty_iff.mp h]
  · rfl

theorem bmwIndexBatch_pendingLen (s : BmwState) (docs : List Doc) :
    (bmwIndexBatch s docs).pending.length = s.pending.length + docs.length := by
  simp [bmwIndexBatch]

theorem buildBlocks_docCount (M : ScoreModel) (s : BmwState) :
    (buildBlocks M s).docCount = s.docCount + s.pending.length := by
  unfold buildBlocks
  split_ifs with h
  · simp [List.isEmpty_iff.mp h]
  · rfl

theorem bmwCommit_docCount (M : ScoreModel) (s : BmwState) :
    (bmwCommit M s).docCount = s.docCount + s.pending.length := by
  simp [bmwCommit, buildBlocks_docCount]

theorem ensIndexBatch_pendingLen (s : EnsState) (docs : List Doc) :
    (ensIndexBatch s docs).pending.length = s.pending.length + docs.length := by
  simp [ensIndexBatch]

theorem buildIndexE_docCount (M : ScoreModel) (s : EnsState) :
    (buildIndexE M s).docCount = s.docCount + s.pending.length := by
  unfold buildIndexE
  split_ifs with h
  · simp [List.isEmpty_iff.mp h]
  · rfl

theorem ensCommit_docCount (M : ScoreModel) (s : EnsState) :
    (ensCommit M s).docCount = s.docCount + s.pending.length := by
  simp [ensCommit, buildIndexE_docCount]

/-! ### Claim C1 -/

/-- The C1 failing input: two one-document batches, each committed, both
documents containing the term `hello`. -/
def c1State : BmwState :=
  bmwCommit tfModel
    (bmwIndexBatch (bmwCommit tfModel (bmwIndexBatch bmwEmpty [⟨"1", strBytes "hello"⟩]))
      [⟨"2", strBytes "hello"⟩])

/-- C1: the claim demands that a search for a term contained in every
committed document return all of them; on the bmw_simd profile, after the
term `hello` is re-seen in a second committed batch, `build_blocks`
replaces the `TermMeta` for `hello` with one pointing only at the new
batch's blocks, so the search returns only document `"2"` even though
document `"1"` is committed (`doc_ids = ["1", "2"]`) and contains the
query term.  (The orphaned first-batch block is still stored:
`postings.len() = 2` while the term's meta reaches only one block.) -/
theorem C1_bmw_crossbatch_recall_loss :
    c1State.docIds = ["1", "2"] ∧
    FastTokenizer.mkDefault.tokenizeQuery (strBytes "hello") = [strBytes "hello"] ∧
    ((bmwSearch tfModel c1State (strBytes "hello") 10 0).toOption.map
      fun r => r.hits.map SearchHit.id) = some ["2"] ∧
    c1State.postings.length = 2 := by
  decide

/-! ### Claim C2 -/

/-- The C2 failing input (spec scenario S2): document `"3"` scores
strictly higher than document `"1"` for the query `hello`. -/
def c2State : UltraState :=
  ultraCommit tfModel
    (ultraIndexBatch ultraEmpty
      [⟨"1", strBytes "hello world"⟩, ⟨"3", strBytes "hello hello world"⟩])

/-- C2: the claim (and the source's own `// Highest score first` comment)
demands hits in descending score order; the extraction pipeline
(`into_sorted_vec` of `Reverse`-wrapped entries already yields descending
`(score, doc_id)` order, and the final `results.reverse()` flips the
emitted page) returns the strictly lower-scored hit first. -/
theorem C2_hits_ascending_not_descending :
    ultraSearchFast tfModel c2State (strBytes "hello") 10 0 =
      [⟨"1", 1⟩, ⟨"3", 2⟩] ∧ (1 : ℚ) < 2 := by
  decide

/-! ### Claim C3 -/

/-- A bmw state with one pending, uncommitted document. -/
def c3State : BmwState := bmwIndexBatch bmwEmpty [⟨"a", strBytes "alpha"⟩]

/-- C3 counterexample: from an engine state holding one pending
(uncommitted) document, `index_batch` of one further document followed by
`commit` moves `doc_count` from 0 to 2, not to the claimed
`pre + docs.len() = 0 + 1`. -/
theorem C3_counterexample_pending_batch :
    c3State.docCount = 0 ∧
    (bmwCommit tfModel (bmwIndexBatch c3State [⟨"b", strBytes "beta"⟩])).docCount = 2 := by
  decide

/-- C3 (amended): `index_batch(docs)` + `commit` adds exactly
`docs.len()` to `doc_count` unconditionally on the ultra profile, and on
the bmw_simd / ensemble profiles provided the engine has no pending
uncommitted documents (otherwise those are committed too). -/
theorem C3_doc_count_after_batch_commit :
    (∀ (M : ScoreModel) (s : UltraState) (docs : List Doc),
      (ultraCommit M (ultraIndexBatch s docs)).docCount = s.docCount + docs.length) ∧
    (∀ (M : ScoreModel) (s : BmwState) (docs : List Doc), s.pending = [] →
      (bmwCommit M (bmwIndexBatch s docs)).docCount = s.docCount + docs.length) ∧
    (∀ (M : ScoreModel) (s : EnsState) (docs : List Doc), s.pending = [] →
      (ensCommit M (ensIndexBatch s docs)).docCount = s.docCount + docs.length) := by
  refine ⟨fun M s docs => ?_, fun M s docs h => ?_, fun M s docs h => ?_⟩
  · rw [ultraCommit_docCount, ultraIndexBatch_docCount]
  · rw [bmwCommit_docCount]
    simp [bmwIndexBatch, h]
  · rw [ensCommit_docCount]
    simp [ensIndexBatch, h]

/-- C3 witness: the amended statement applied to a fresh bmw engine and a
one-document batch. -/
theorem C3_witness :
    bmwEmpty.pending = [] ∧
    (bmwCommit tfModel (bmwIndexBatch bmwEmpty [⟨"a", strBytes "alpha"⟩])).docCount =
      bmwEmpty.docCount + 1 :=
  ⟨rfl, C3_doc_count_after_batch_commit.2.1 tfModel bmwEmpty [⟨"a", strBytes "alpha"⟩] rfl⟩

/-! ### Claim C5 -/

theorem cabm_of_not_dirty (M : ScoreModel) (s : UltraState)
    (h : s.blockMaxesDirty = false) : ultraComputeAllBlockMaxes M s = s := by
  unfold ultraComputeAllBlockMaxes; simp [h]

theorem cabm_of_count_zero (M : ScoreModel) (s : UltraState)
    (h : s.docCount = 0) : ultraComputeAllBlockMaxes M s = s := by
  unfold ultraComputeAllBlockMaxes; split_ifs <;> simp_all

theorem cabm_of_dirty_pos (M : ScoreModel) (s : UltraState)
    (h1 : s.blockMaxesDirty = true) (h2 : s.docCount ≠ 0) :
    ultraComputeAllBlockMaxes M s =
      { s with
        termDict := s.termDict.map fun p =>
          (p.1, computeBlockMaxesU M s.docLengths s.totalDocLength s.docCount p.2)
        blockMaxesDirty := false } := by
  unfold ultraComputeAllBlockMaxes; simp [h1, h2]

theorem ultraCommit_of_count_zero (M : ScoreModel) (s : UltraState)
    (h : s.docCount = 0) : ultraCommit M s = s := by
  unfold ultraCommit
  rw [if_neg (by omega), cabm_of_count_zero M s h]

theorem ultraCommit_idem (M : ScoreModel) (s : UltraState) :
    ultraCommit M (ultraCommit M s) = ultraCommit M s := by
  rcases Nat.eq_zero_or_pos s.docCount with h0 | hpos
  · rw [ultraCommit_of_count_zero M s h0]
    exact ultraCommit_of_count_zero M s h0
  · have hif : ultraCommit M s =
        ultraComputeAllBlockMaxes M
          { s with termDict := s.termDict.map fun p => (p.1, { p.2 with idf := M.idf s.docCount p.2.df }) } := by
      unfold ultraCommit; rw [if_pos hpos]
    cases hd : s.blockMaxesDirty with
    | false =>
      -- block maxes already clean: the refresh is the identity both times
      have h1 : ultraCommit M s =
          { s with termDict := s.termDict.map fun p => (p.1, { p.2 with idf := M.idf s.docCount p.2.df }) } := by
        rw [hif, cabm_of_not_dirty]
        exact hd
      rw [h1]
      unfold ultraCommit
      rw [if_pos (show (0 : Nat) < _ from hpos), cabm_of_not_dirty]
      · rw [List.map_map]; exact rfl
      · exact hd
    | true =>
      -- dirty: the first commit recomputes and clears the flag
      have h1 : ultraCommit M s =
          { s with
            termDict := (s.termDict.map fun p => (p.1, { p.2 with idf := M.idf s.docCount p.2.df })).map
              fun p => (p.1, computeBlockMaxesU M s.docLengths s.totalDocLength s.docCount p.2)
            blockMaxesDirty := false } := by
        rw [hif, cabm_of_dirty_pos]
        · exact hd
        · exact (show s.docCount ≠ 0 by omega)
      rw [h1]
      unfold ultraCommit
      rw [if_pos (show (0 : Nat) < _ from hpos), cabm_of_not_dirty]
      · simp only [List.map_map]; exact rfl
      · rfl

/-- C5: on all three modelled profiles, a second `commit` with no
intervening `index_batch` leaves the entire engine state — hence
`doc_count`, every posting list, every idf, every block-max array, and
the result of any subsequent `search` — unchanged.  For ultra the second
commit recomputes every idf to the value it already has and skips the
block-max refresh because the dirty flag is clear (or `doc_count` is 0);
for bmw_simd / ensemble the second `build_blocks` / `build_index` returns
immediately on the empty `pending` queue. -/
theorem C5_commit_idempotent :
    (∀ (M : ScoreModel) (s : UltraState), ultraCommit M (ultraCommit M s) = ultraCommit M s) ∧
    (∀ (M : ScoreModel) (s : BmwState), bmwCommit M (bmwCommit M s) = bmwCommit M s) ∧
    (∀ (M : ScoreModel) (s : EnsState), ensCommit M (ensCommit M s) = ensCommit M s) :=
  ⟨ultraCommit_idem, fun _ _ => rfl, fun _ _ => rfl⟩

/-! ### Claim C6 -/

theorem foldl_topKStep_small (k : Nat) :
    ∀ (l : List (Nat × ℚ)) (heap : List (ℚ × Nat)) (τ : ℚ),
      heap.length + l.length ≤ k →
      (l.foldl (topKStep k) (heap, τ)).1 =
        l.foldl (fun h x => h.orderedInsert entryLe (x.2, x.1)) heap := by
  intro l
  induction l with
  | nil => intro heap τ h; rfl
  | cons x rest ih =>
    intro heap τ h
    have hlt : heap.length < k := by simp at h; omega
    simp only [List.foldl_cons]
    have hstep : topKStep k (heap, τ) x =
        (heap.orderedInsert entryLe (x.2, x.1),
          if (heap.orderedInsert entryLe (x.2, x.1)).length = k
          then ((heap.orderedInsert entryLe (x.2, x.1)).headD (0, 0)).1 else τ) := by
      simp [topKStep, hlt]
    rw [hstep]
    exact ih _ _ (by rw [List.orderedInsert_length]; simp at h ⊢; omega)

theorem foldl_ordIns_sorted :
    ∀ (l : List (Nat × ℚ)) (heap : List (ℚ × Nat)), heap.Sorted entryLe →
      (l.foldl (fun h x => h.orderedInsert entryLe (x.2, x.1)) heap).Sorted entryLe := by
  intro l
  induction l with
  | nil => intro heap h; exact h
  | cons x rest ih =>
    intro heap h
    exact ih _ (h.orderedInsert _ _)

theorem foldl_ordIns_perm :
    ∀ (l : List (Nat × ℚ)) (heap : List (ℚ × Nat)),
      (l.foldl (fun h x => h.orderedInsert entryLe (x.2, x.1)) heap).Perm
        ((l.map fun x => (x.2, x.1)) ++ heap) := by
  intro l
  induction l with
  | nil => intro heap; simp
  | cons x rest ih =>
    intro heap
    simp only [List.foldl_cons, List.map_cons, List.cons_append]
    exact (ih _).trans
      (((List.perm_orderedInsert entryLe (x.2, x.1) heap).append_left _).trans
        List.perm_middle)

theorem buildTopK_perm_eq (k : Nat) (l₁ l₂ : List (Nat × ℚ))
    (hp : l₁.Perm l₂) (hl : l₁.length ≤ k) :
    buildTopK k l₁ = buildTopK k l₂ := by
  have h₁ : buildTopK k l₁ =
      l₁.foldl (fun h x => h.orderedInsert entryLe (x.2, x.1)) [] :=
    foldl_topKStep_small k l₁ [] 0 (by simpa using hl)
  have h₂ : buildTopK k l₂ =
      l₂.foldl (fun h x => h.orderedInsert entryLe (x.2, x.1)) [] :=
    foldl_topKStep_small k l₂ [] 0 (by simpa using hp.length_eq ▸ hl)
  rw [h₁, h₂]
  refine List.eq_of_perm_of_sorted ?_ (foldl_ordIns_sorted _ _ (by simp))
    (foldl_ordIns_sorted _ _ (by simp))
  exact (foldl_ordIns_perm _ _).trans
    (((hp.map _).append_right _).trans (foldl_ordIns_perm _ _).symm)

/-- C6 counterexample: with two candidates tying exactly at the top-k
threshold and `k = limit + offset = 1`, the two enumeration orders of the
same `scored` map retain different documents (the strict
`score > threshold` test never replaces the first-inserted tied entry), so
the emitted hit lists differ.  In `BmwSimdProfile::search_bmw` /
`EnsembleProfile::search_ensemble` the `scored` map is a std `HashMap`
whose iteration order is randomly seeded per call, so two identical
searches over the same committed snapshot can return different hits. -/
theorem C6_counterexample_threshold_tie :
    ([((0 : Nat), (1 : ℚ)), (1, 1)]).Perm [(1, 1), (0, 1)] ∧
    extractHits (buildTopK 1 [(0, 1), (1, 1)]) 1 0 (fun d => "doc_" ++ toString d) ≠
      extractHits (buildTopK 1 [(1, 1), (0, 1)]) 1 0 (fun d => "doc_" ++ toString d) :=
  ⟨List.Perm.swap _ _ _, by decide⟩

/-- C6 (amended): the search pipeline is independent of the hash map's
enumeration order of the scored candidates — hence two identical queries
over one snapshot return identical hits and scores — whenever
`limit + offset` covers the whole scored candidate set, so that no
tie-breaking at the heap threshold occurs; with a smaller window the
retained tied candidate depends on the enumeration order (see the
counterexample). -/
theorem C6_covered_window_order_independent :
    ∀ (limit offset : Nat) (l₁ l₂ : List (Nat × ℚ)) (mkId : Nat → String),
      l₁.Perm l₂ → l₁.length ≤ limit + offset →
      extractHits (buildTopK (limit + offset) l₁) limit offset mkId =
        extractHits (buildTopK (limit + offset) l₂) limit offset mkId := by
  intro limit offset l₁ l₂ mkId hp hl
  rw [buildTopK_perm_eq _ _ _ hp hl]

/-- C6 witness: the amended statement applied to a concrete two-element
scored set, its two enumeration orders and a covering window. -/
theorem C6_witness :
    ([((0 : Nat), (1 : ℚ)), (1, 2)]).Perm [(1, 2), (0, 1)] ∧
    extractHits (buildTopK (2 + 0) [(0, 1), (1, 2)]) 2 0 (fun d => "doc_" ++ toString d) =
      extractHits (buildTopK (2 + 0) [(1, 2), (0, 1)]) 2 0 (fun d => "doc_" ++ toString d) :=
  ⟨List.Perm.swap _ _ _,
    C6_covered_window_order_independent 2 0 _ _ _ (List.Perm.swap _ _ _) (by decide)⟩

/-! ### Claim C7 -/

theorem bumpWrap_fst_mem {κ : Type} [DecidableEq κ] :
    ∀ (m : List (κ × Nat)) (k : κ) (a : κ),
      a ∈ (bumpWrap m k).map Prod.fst → a = k ∨ a ∈ m.map Prod.fst := by
  intro m
  induction m with
  | nil => intro k a h; simp [bumpWrap] at h; exact Or.inl h
  | cons q rest ih =>
    intro k a h
    obtain ⟨q1, q2⟩ := q
    by_cases hq : q1 = k
    · subst hq
      rw [show bumpWrap ((q1, q2) :: rest) q1 = (q1, (q2 + 1) % 65536) :: rest from by
        simp [bumpWrap]] at h
      simp only [List.map_cons, List.mem_cons] at h
      rcases h with h | h
      · exact Or.inl h
      · exact Or.inr (by simp only [List.map_cons, List.mem_cons]; exact Or.inr h)
    · rw [show bumpWrap ((q1, q2) :: rest) k = (q1, q2) :: bumpWrap rest k from by
        simp [bumpWrap, hq]] at h
      simp only [List.map_cons, List.mem_cons] at h
      rcases h with h | h
      · exact Or.inr (by simp only [List.map_cons, List.mem_cons]; exact Or.inl h)
      · rcases ih k a h with h2 | h2
        · exact Or.inl h2
        · exact Or.inr (by simp only [List.map_cons, List.mem_cons]; exact Or.inr h2)

theorem foldl_bumpWrap_keys {κ : Type} [DecidableEq κ] :
    ∀ (ks : List κ) (init : List (κ × Nat)) (p : κ × Nat),
      p ∈ ks.foldl bumpWrap init → p.1 ∈ init.map Prod.fst ∨ p.1 ∈ ks := by
  intro ks
  induction ks with
  | nil => intro init p h; exact Or.inl (List.mem_map_of_mem _ h)
  | cons k rest ih =>
    intro init p h
    rcases ih (bumpWrap init k) p h with h2 | h2
    · rcases bumpWrap_fst_mem init k p.1 h2 with h3 | h3
      · exact Or.inr (by simp [h3])
      · exact Or.inl h3
    · exact Or.inr (by simp [h2])

/-- The 33-byte token of the C7 counterexample. -/
def tok33 : List Nat := List.replicate 33 97

/-- C7 counterexample: the default `FastTokenizer` has
`max_length = 64`, so a 33-byte token is emitted with frequency 1 — and
is indexed and searchable through the bmw_simd profile — contradicting
the claimed `[2, 32]` default window. -/
theorem C7_counterexample_len33_token :
    (tok33, 1) ∈ FastTokenizer.mkDefault.tokenizeWithFreqs tok33 ∧
    tok33.length = 33 ∧
    ((bmwSearch tfModel (bmwCommit tfModel (bmwIndexBatch bmwEmpty [⟨"d", tok33⟩]))
        tok33 10 0).toOption.map fun r => r.hits.map SearchHit.id) = some ["d"] := by
  decide

/-- C7 (amended): `FastTokenizer::default()` (used by the bmw_simd and
ensemble ingest paths) emits a token only if its byte length lies in
`[2, 64]` — the default `max_length` is 64, not the claimed 32 — while
the ultra profile's internal tokenizer `tokenize_fast_hash_only` keeps
the hard-coded `[2, 32]` window.  Hence no token of length 1 is ever
indexed, none longer than 64 in any modelled profile, and none longer
than 32 in ultra. -/
theorem C7_token_length_windows :
    (∀ (text : List Nat) (p : List Nat × Nat),
      p ∈ FastTokenizer.mkDefault.tokenizeWithFreqs text →
        2 ≤ p.1.length ∧ p.1.length ≤ 64) ∧
    (∀ (text : List Nat) (p : Nat × Nat),
      p ∈ ultraTokenizeHashOnly text →
        ∃ r, r ∈ asciiRuns text ∧ p.1 = fnv r ∧ 2 ≤ r.length ∧ r.length ≤ 32) := by
  constructor
  · intro text p hp
    rcases foldl_bumpWrap_keys _ [] p hp with h | h
    · simp at h
    · unfold FastTokenizer.tokenRuns at h
      have := List.mem_filter.mp h
      simpa [FastTokenizer.mkDefault] using this.2
  · intro text p hp
    rcases foldl_bumpWrap_keys _ [] p hp with h | h
    · simp at h
    · obtain ⟨r, hr, hfnv⟩ := List.mem_map.mp h
      have := List.mem_filter.mp hr
      exact ⟨r, this.1, hfnv.symm, by simpa using this.2⟩

/-- C7 witness: both parts of the amended statement at concrete tokens. -/
theorem C7_witness :
    (strBytes "hello", 1) ∈
      FastTokenizer.mkDefault.tokenizeWithFreqs (strBytes "hello") ∧
    (2 ≤ (strBytes "hello").length ∧ (strBytes "hello").length ≤ 64) := by
  refine ⟨by decide, ?_⟩
  exact C7_token_length_windows.1 (strBytes "hello") (strBytes "hello", 1) (by decide)

/-! ### Claim C8 -/

theorem runsAux_aa_block (rest : List Nat) :
    runsAux (97 :: 97 :: 32 :: rest) [] = [97, 97] :: runsAux rest [] := rfl

theorem asciiRuns_repAA :
    ∀ n : Nat, asciiRuns ((List.replicate n [97, 97, 32]).flatten) =
      List.replicate n [97, 97] := by
  intro n
  induction n with
  | zero => rfl
  | succ m ih =>
    rw [List.replicate_succ, List.flatten_cons]
    show runsAux (97 :: 97 :: 32 :: (List.replicate m [97, 97, 32]).flatten) [] = _
    rw [runsAux_aa_block, List.replicate_succ]
    exact congrArg _ ih

theorem foldl_bumpWrap_rep {κ : Type} [DecidableEq κ] (k : κ) :
    ∀ (n f : Nat), f < 65536 →
      (List.replicate n k).foldl bumpWrap [(k, f)] = [(k, (f + n) % 65536)] := by
  intro n
  induction n with
  | zero => intro f hf; simp [Nat.mod_eq_of_lt hf]
  | succ m ih =>
    intro f hf
    rw [List.replicate_succ, List.foldl_cons]
    have h1 : bumpWrap [(k, f)] k = [(k, (f + 1) % 65536)] := by simp [bumpWrap]
    rw [h1, ih ((f + 1) % 65536) (Nat.mod_lt _ (by omega))]
    refine congrArg (fun x => [(k, x)]) ?_
    omega

theorem foldl_bumpWrap_rep_nil {κ : Type} [DecidableEq κ] (k : κ) (n : Nat)
    (h : 1 ≤ n) : (List.replicate n k).foldl bumpWrap [] = [(k, n % 65536)] := by
  obtain ⟨m, rfl⟩ : ∃ m, n = m + 1 := ⟨n - 1, by omega⟩
  rw [List.replicate_succ, List.foldl_cons]
  show (List.replicate m k).foldl bumpWrap [(k, 1)] = _
  rw [foldl_bumpWrap_rep k m 1 (by omega)]
  refine congrArg (fun x => [(k, x)]) ?_
  omega

/-- A document whose text is `"aa "` repeated 65536 times: 65536
occurrences of the token `aa`, one more than `u16::MAX`. -/
def bigText : List Nat := (List.replicate 65536 [97, 97, 32]).flatten

/-- C8: the per-term `u16` frequency does not saturate on the ingest
paths: both `tokenize_fast_hash_only` (ultra ingest) and
`tokenize_with_freqs` (bmw_simd / ensemble ingest) use the unchecked
`+= 1`, so a document with 65536 occurrences of `aa` records frequency
`65536 mod 2^16 = 0` — not the claimed `u16::MAX = 65535` (in a debug
build the increment panics instead of wrapping; either way it does not
saturate).  Only the ultra query path `tokenize_fast` saturates. -/
theorem C8_ingest_freq_wraps_to_zero :
    ultraTokenizeHashOnly bigText = [(fnv [97, 97], 0)] ∧
    FastTokenizer.mkDefault.tokenizeWithFreqs bigText = [([97, 97], 0)] ∧
    (65535 : Nat) < 65536 := by
  refine ⟨?_, ?_, by omega⟩
  · unfold ultraTokenizeHashOnly bigText
    rw [asciiRuns_repAA]
    have hf : (List.replicate 65536 [97, 97]).filter
        (fun r => 2 ≤ r.length ∧ r.length ≤ 32) = List.replicate 65536 [97, 97] := by
      apply List.filter_eq_self.mpr
      intro a ha
      rw [List.eq_of_mem_replicate ha]
      decide
    rw [hf, List.map_replicate]
    have := foldl_bumpWrap_rep_nil (fnv [97, 97]) 65536 (by omega)
    rw [this]
  · unfold FastTokenizer.tokenizeWithFreqs FastTokenizer.tokenRuns bigText
    rw [asciiRuns_repAA]
    have hf : (List.replicate 65536 [97, 97]).filter
        (fun r => FastTokenizer.mkDefault.min_length ≤ r.length ∧
          r.length ≤ FastTokenizer.mkDefault.max_length) = List.replicate 65536 [97, 97] := by
      apply List.filter_eq_self.mpr
      intro a ha
      rw [List.eq_of_mem_replicate ha]
      decide
    rw [hf]
    have := foldl_bumpWrap_rep_nil ([97, 97] : List Nat) 65536 (by omega)
    rw [this]

/-! ### Claim C4: posting-list doc-id monotonicity -/

/-- Every posting list in the dictionary has non-decreasing doc ids and
all of them below `bound`. -/
def dictSortedBelow (bound : Nat) (dict : List (Nat × UPostingList)) : Prop :=
  ∀ p ∈ dict, p.2.entries.Pairwise (fun a b => a.docId ≤ b.docId) ∧
    ∀ e ∈ p.2.entries, e.docId < bound

theorem dictSortedBelow_mono {b b2 : Nat} {d : List (Nat × UPostingList)}
    (hb : b ≤ b2) (h : dictSortedBelow b d) : dictSortedBelow b2 d :=
  fun p hp => ⟨(h p hp).1, fun e he => lt_of_lt_of_le ((h p hp).2 e he) hb⟩

theorem dictAddEntry_inv {d : Nat} (f : Nat) (k : Nat) :
    ∀ (dict : List (Nat × UPostingList)), dictSortedBelow (d + 1) dict →
      dictSortedBelow (d + 1) (dictAddEntry dict k ⟨d, f⟩) := by
  intro dict
  induction dict with
  | nil =>
    intro _ p hp
    simp only [dictAddEntry, postingAppend, List.mem_singleton] at hp
    subst hp
    refine ⟨by simp, ?_⟩
    intro e he
    simp at he
    simp [he]
  | cons q rest ih =>
    intro h p hp
    obtain ⟨a, pl⟩ := q
    by_cases hk : a = k
    · rw [show dictAddEntry ((a, pl) :: rest) k ⟨d, f⟩ =
          (a, postingAppend pl ⟨d, f⟩) :: rest from by simp [dictAddEntry, hk]] at hp
      rcases List.mem_cons.mp hp with hp | hp
      · subst hp
        have hq := h (a, pl) (by simp)
        constructor
        · simp only [postingAppend]
          rw [List.pairwise_append]
          refine ⟨hq.1, by simp, ?_⟩
          intro x hx y hy
          simp at hy
          have := hq.2 x hx
          simp [hy]
          omega
        · intro e he
          simp only [postingAppend, List.mem_append, List.mem_singleton] at he
          rcases he with he | he
          · exact hq.2 e he
          · simp [he]
      · exact h p (List.mem_cons_of_mem _ hp)
    · rw [show dictAddEntry ((a, pl) :: rest) k ⟨d, f⟩ =
          (a, pl) :: dictAddEntry rest k ⟨d, f⟩ from by simp [dictAddEntry, hk]] at hp
      rcases List.mem_cons.mp hp with hp | hp
      · subst hp
        exact h (a, pl) (by simp)
      · exact ih (fun q hq => h q (List.mem_cons_of_mem _ hq)) p hp

theorem applyDocTerms_inv {d : Nat} :
    ∀ (terms : List (Nat × Nat)) (dict : List (Nat × UPostingList)),
      dictSortedBelow (d + 1) dict →
      dictSortedBelow (d + 1) (applyDocTerms dict d terms) := by
  intro terms
  induction terms with
  | nil => intro dict h; exact h
  | cons t rest ih =>
    intro dict h
    exact ih _ (dictAddEntry_inv t.2 t.1 dict h)

theorem applyDocsFrom_inv :
    ∀ (docs : List Doc) (i : Nat) (dict : List (Nat × UPostingList)),
      dictSortedBelow i dict →
      dictSortedBelow (i + docs.length) (applyDocsFrom dict i docs) := by
  intro docs
  induction docs with
  | nil => intro i dict h; simpa using h
  | cons doc rest ih =>
    intro i dict h
    have h1 : dictSortedBelow (i + 1) dict := dictSortedBelow_mono (by omega) h
    have h2 := applyDocTerms_inv (ultraTokenizeHashOnly doc.text) dict h1
    have h3 := ih (i + 1) _ h2
    have : i + (doc :: rest).length = (i + 1) + rest.length := by simp; omega
    rw [this]
    exact h3

theorem map_preserving_inv {b : Nat} {dict : List (Nat × UPostingList)}
    (f : (Nat × UPostingList) → Nat × UPostingList)
    (hf : ∀ p, ((f p).2).entries = p.2.entries)
    (h : dictSortedBelow b dict) : dictSortedBelow b (dict.map f) := by
  intro p hp
  obtain ⟨q, hq, rfl⟩ := List.mem_map.mp hp
  rw [hf]
  exact h q hq

theorem ultraIndexBatch_inv {s : UltraState} (docs : List Doc)
    (h : dictSortedBelow s.docCount s.termDict) :
    dictSortedBelow (ultraIndexBatch s docs).docCount
      (ultraIndexBatch s docs).termDict := by
  unfold ultraIndexBatch
  split_ifs with hempty
  · exact h
  · exact applyDocsFrom_inv docs s.docCount s.termDict h

theorem ultraCommit_inv (M : ScoreModel) {s : UltraState}
    (h : dictSortedBelow s.docCount s.termDict) :
    dictSortedBelow (ultraCommit M s).docCount (ultraCommit M s).termDict := by
  rw [ultraCommit_docCount]
  unfold ultraCommit ultraComputeAllBlockMaxes
  split_ifs <;>
    first
      | exact h
      | exact map_preserving_inv _ (fun p => rfl) h
      | exact map_preserving_inv _ (fun p => rfl) (map_preserving_inv _ (fun p => rfl) h)

theorem ultraReach_sorted {M : ScoreModel} {s : UltraState} (hr : UltraReach M s) :
    dictSortedBelow s.docCount s.termDict := by
  induction hr with
  | empty => intro p hp; simp [ultraEmpty] at hp
  | batch docs _ ih => exact ultraIndexBatch_inv docs ih
  | commit _ ih => exact ultraCommit_inv M ih

/-- The concatenated doc ids of a block list, in storage order. -/
def blocksJoin (bs : List PBlock) : List Nat := (bs.map PBlock.docIds).flatten

theorem mkBlocks_join (M : ScoreModel) (dls : List Nat) (tl n df : Nat)
    (ps : List (Nat × Nat)) :
    blocksJoin (mkBlocks M dls tl n df ps) = ps.map Prod.fst := by
  unfold blocksJoin mkBlocks
  rw [List.map_map]
  show ((chunked 128 ps).map fun ch => ch.map Prod.fst).flatten = _
  rw [← List.map_flatten, chunked_join]

/-- Per-term posts are sorted with doc ids in `[lo, hi)`. -/
def postsInv (lo hi : Nat) (acc : List (List Nat × List (Nat × Nat))) : Prop :=
  ∀ p ∈ acc, p.2.Pairwise (fun a b => a.1 ≤ b.1) ∧ ∀ x ∈ p.2, lo ≤ x.1 ∧ x.1 < hi

theorem postsInv_mono_hi {lo hi hi2 : Nat} {acc} (hb : hi ≤ hi2)
    (h : postsInv lo hi acc) : postsInv lo hi2 acc :=
  fun p hp => ⟨(h p hp).1, fun x hx =>
    ⟨((h p hp).2 x hx).1, lt_of_lt_of_le ((h p hp).2 x hx).2 hb⟩⟩

theorem pushPost_inv {lo i : Nat} (t : List Nat) (f : Nat) (hlo : lo ≤ i) :
    ∀ (acc : List (List Nat × List (Nat × Nat))), postsInv lo (i + 1) acc →
      postsInv lo (i + 1) (pushPost acc t (i, f)) := by
  intro acc
  induction acc with
  | nil =>
    intro _ p hp
    simp only [pushPost, List.mem_singleton] at hp
    subst hp
    exact ⟨by simp, by simp; omega⟩
  | cons q rest ih =>
    intro h p hp
    obtain ⟨a, ps⟩ := q
    by_cases ht : a = t
    · rw [show pushPost ((a, ps) :: rest) t (i, f) = (a, ps ++ [(i, f)]) :: rest from by
        simp [pushPost, ht]] at hp
      rcases List.mem_cons.mp hp with hp | hp
      · subst hp
        have hq := h (a, ps) (by simp)
        constructor
        · rw [List.pairwise_append]
          refine ⟨hq.1, by simp, ?_⟩
          intro x hx y hy
          simp at hy
          have := (hq.2 x hx).2
          simp [hy]
          omega
        · intro x hx
          rcases List.mem_append.mp hx with hx | hx
          · exact hq.2 x hx
          · simp at hx
            simp [hx]
            omega
      · exact h p (List.mem_cons_of_mem _ hp)
    · rw [show pushPost ((a, ps) :: rest) t (i, f) = (a, ps) :: pushPost rest t (i, f) from by
        simp [pushPost, ht]] at hp
      rcases List.mem_cons.mp hp with hp | hp
      · subst hp; exact h (a, ps) (by simp)
      · exact ih (fun q hq => h q (List.mem_cons_of_mem _ hq)) p hp

theorem docFold_inv {lo i : Nat} (hlo : lo ≤ i) :
    ∀ (tfs : List (List Nat × Nat)) (acc), postsInv lo (i + 1) acc →
      postsInv lo (i + 1) (tfs.foldl (fun a t => pushPost a t.1 (i, t.2)) acc) := by
  intro tfs
  induction tfs with
  | nil => intro acc h; exact h
  | cons t rest ih => intro acc h; exact ih _ (pushPost_inv t.1 t.2 hlo acc h)

theorem termPostsFrom_inv {lo : Nat} :
    ∀ (pending : List PendingDoc) (acc) (i : Nat), postsInv lo i acc → lo ≤ i →
      postsInv lo (i + pending.length) (termPostsFrom acc i pending) := by
  intro pending
  induction pending with
  | nil => intro acc i h _; simpa using h
  | cons d rest ih =>
    intro acc i h hlo
    have h1 : postsInv lo (i + 1) acc := postsInv_mono_hi (by omega) h
    have h2 := docFold_inv hlo d.tfs acc h1
    have h3 := ih _ (i + 1) h2 (by omega)
    have : i + (d :: rest).length = (i + 1) + rest.length := by simp; omega
    rw [this]
    exact h3

theorem pushPost_keys (t : List Nat) (p : Nat × Nat) :
    ∀ (acc : List (List Nat × List (Nat × Nat))),
      (pushPost acc t p).map Prod.fst =
        if t ∈ acc.map Prod.fst then acc.map Prod.fst else acc.map Prod.fst ++ [t] := by
  intro acc
  induction acc with
  | nil => simp [pushPost]
  | cons q rest ih =>
    obtain ⟨a, ps⟩ := q
    by_cases ht : a = t
    · subst ht
      simp [pushPost]
    · rw [show pushPost ((a, ps) :: rest) t p = (a, ps) :: pushPost rest t p from by
        simp [pushPost, ht]]
      simp only [List.map_cons, ih]
      by_cases hm : t ∈ rest.map Prod.fst
      · simp [hm, ht, Ne.symm ht]
      · simp [hm, ht, Ne.symm ht]

theorem pushPost_keys_nodup {t : List Nat} {p : Nat × Nat}
    {acc : List (List Nat × List (Nat × Nat))} (h : (acc.map Prod.fst).Nodup) :
    ((pushPost acc t p).map Prod.fst).Nodup := by
  rw [pushPost_keys]
  split_ifs with hm
  · exact h
  · simp [List.nodup_append, h, hm]

theorem docFold_keys_nodup {i : Nat} :
    ∀ (tfs : List (List Nat × Nat)) (acc),
      (acc.map Prod.fst).Nodup →
      (((tfs.foldl (fun a t => pushPost a t.1 (i, t.2)) acc)).map Prod.fst).Nodup := by
  intro tfs
  induction tfs with
  | nil => intro acc h; exact h
  | cons t rest ih => intro acc h; exact ih _ (pushPost_keys_nodup h)

theorem termPostsFrom_keys_nodup :
    ∀ (pending : List PendingDoc) (acc) (i : Nat), (acc.map Prod.fst).Nodup →
      ((termPostsFrom acc i pending).map Prod.fst).Nodup := by
  intro pending
  induction pending with
  | nil => intro acc i h; exact h
  | cons d rest ih => intro acc i h; exact ih _ _ (docFold_keys_nodup d.tfs acc h)

/-- The joined doc ids of one compressed posting are sorted. -/
def cpSorted (cp : CPosting) : Prop :=
  (blocksJoin cp.blocks).Pairwise (fun a b => a ≤ b)

/-- All joined doc ids of one compressed posting are below `b`. -/
def cpBelow (b : Nat) (cp : CPosting) : Prop := ∀ x ∈ blocksJoin cp.blocks, x < b

theorem foldAddTermE_inv (M : ScoreModel) (dls : List Nat) (tl base n : Nat) :
    ∀ (tps : List (List Nat × List (Nat × Nat))) (dict : List (List Nat × CPosting)),
      (∀ p ∈ dict, cpSorted p.2 ∧ cpBelow n p.2 ∧
        (p.1 ∈ tps.map Prod.fst → cpBelow base p.2)) →
      postsInv base n tps → ((tps.map Prod.fst).Nodup) →
      ∀ p ∈ tps.foldl (addTermE M dls tl n) dict, cpSorted p.2 ∧ cpBelow n p.2 := by
  intro tps
  induction tps with
  | nil => intro dict hd _ _ p hp; exact ⟨(hd p hp).1, (hd p hp).2.1⟩
  | cons tp rest ih =>
    intro dict hd hposts hnodup
    simp only [List.foldl_cons]
    have htp := hposts tp (by simp)
    have hjoin := mkBlocks_join M dls tl n tp.2.length tp.2
    have hnew_sorted : ((mkBlocks M dls tl n tp.2.length tp.2).map PBlock.docIds).flatten.Pairwise
        (fun a b => a ≤ b) := by
      show (blocksJoin _).Pairwise _
      rw [hjoin]
      exact List.pairwise_map.mpr htp.1
    have hnew_bounds : ∀ x ∈ (blocksJoin (mkBlocks M dls tl n tp.2.length tp.2)),
        base ≤ x ∧ x < n := by
      rw [hjoin]
      intro x hx
      obtain ⟨y, hy, rfl⟩ := List.mem_map.mp hx
      exact htp.2 y hy
    apply ih
    · -- the precondition carries to the updated dictionary
      intro p hp
      unfold addTermE at hp
      rcases hfind : dict.find? (fun q => q.1 = tp.1) with _ | w
      · rw [hfind] at hp
        simp only at hp
        rcases List.mem_append.mp hp with hp | hp
        · have := hd p hp
          exact ⟨this.1, this.2.1, fun hmem => this.2.2 (by simp [hmem])⟩
        · simp at hp
          subst hp
          refine ⟨hnew_sorted, ?_, ?_⟩
          · intro x hx; exact (hnew_bounds x hx).2
          · intro hmem
            exfalso
            have hcons : (tp.1 :: rest.map Prod.fst).Nodup := by simpa using hnodup
            exact (List.nodup_cons.mp hcons).1 (by simpa using hmem)
      · rw [hfind] at hp
        simp only at hp
        obtain ⟨q, hq, rfl⟩ := List.mem_map.mp hp
        by_cases hqt : q.1 = tp.1
        · rw [if_pos hqt]
          have hqd := hd q hq
          have hold_below : cpBelow base q.2 := hqd.2.2 (by simp [hqt])
          constructor
          · show (blocksJoin (q.2.blocks ++ _)).Pairwise _
            unfold blocksJoin
            rw [List.map_append, List.flatten_append, List.pairwise_append]
            refine ⟨hqd.1, hnew_sorted, ?_⟩
            intro x hx y hy
            have h1 := hold_below x hx
            have h2 := (hnew_bounds y hy).1
            omega
          constructor
          · show cpBelow n _
            intro x hx
            unfold blocksJoin at hx
            rw [List.map_append, List.flatten_append] at hx
            rcases List.mem_append.mp hx with hx | hx
            · exact hqd.2.1 x hx
            · exact (hnew_bounds x hx).2
          · intro hmem
            exfalso
            have hcons : (tp.1 :: rest.map Prod.fst).Nodup := by simpa using hnodup
            rw [hqt] at hmem
            exact (List.nodup_cons.mp hcons).1 (by simpa using hmem)
        · rw [if_neg hqt]
          have := hd q hq
          exact ⟨this.1, this.2.1, fun hmem => this.2.2 (by simp [hmem])⟩
    · exact fun p hp => hposts p (List.mem_cons_of_mem _ hp)
    · exact (List.nodup_cons.mp hnodup).2

/-- All compressed postings sorted and bounded. -/
def ensInv (bound : Nat) (dict : List (List Nat × CPosting)) : Prop :=
  ∀ p ∈ dict, cpSorted p.2 ∧ cpBelow bound p.2

theorem buildIndexE_inv (M : ScoreModel) {s : EnsState}
    (h : ensInv s.docCount s.termPostings) :
    ensInv (buildIndexE M s).docCount (buildIndexE M s).termPostings := by
  unfold buildIndexE
  split_ifs with hempty
  · exact h
  · intro p hp
    refine foldAddTermE_inv M _ _ s.docCount (s.docCount + s.pending.length) _ _ ?_ ?_ ?_ p hp
    · intro q hq
      have := h q hq
      exact ⟨this.1, fun x hx => lt_of_lt_of_le (this.2 x hx) (by omega),
        fun _ => this.2⟩
    · have h0 : postsInv s.docCount s.docCount ([] : List (List Nat × List (Nat × Nat))) := by
        intro q hq; simp at hq
      simpa using termPostsFrom_inv s.pending [] s.docCount h0 le_rfl
    · exact termPostsFrom_keys_nodup s.pending [] s.docCount (by simp)

theorem ensIndexBatch_inv {s : EnsState} (docs : List Doc)
    (h : ensInv s.docCount s.termPostings) :
    ensInv (ensIndexBatch s docs).docCount (ensIndexBatch s docs).termPostings := h

theorem ensCommit_inv (M : ScoreModel) {s : EnsState}
    (h : ensInv s.docCount s.termPostings) :
    ensInv (ensCommit M s).docCount (ensCommit M s).termPostings :=
  buildIndexE_inv M h

theorem ensReach_sorted {M : ScoreModel} {s : EnsState} (hr : EnsReach M s) :
    ensInv s.docCount s.termPostings := by
  induction hr with
  | empty => intro p hp; simp [ensEmpty] at hp
  | batch docs _ ih => exact ensIndexBatch_inv docs ih
  | commit _ ih => exact ensCommit_inv M ih

/-- The block run a bmw `TermMeta` designates: the slice
`postings[posting_offset .. posting_offset + num_blocks)` that
`search_bmw` walks. -/
def metaBlocks (postings : List PBlock) (m : TermMeta) : List PBlock :=
  (postings.drop m.postingOffset).take m.numBlocks

theorem metaBlocks_append_of_le {postings bs : List PBlock} {m : TermMeta}
    (h : m.postingOffset + m.numBlocks ≤ postings.length) :
    metaBlocks (postings ++ bs) m = metaBlocks postings m := by
  unfold metaBlocks
  rw [List.drop_append_eq_append_drop, List.take_append_eq_append_take]
  have h1 : (postings.drop m.postingOffset).length = postings.length - m.postingOffset := by
    simp
  rw [show m.numBlocks - (postings.drop m.postingOffset).length = 0 from by omega,
    show m.postingOffset - postings.length = 0 from by omega]
  simp

theorem metaBlocks_fresh (postings bs : List PBlock) (df : Nat) (idf : ℚ) :
    metaBlocks (postings ++ bs)
      { df := df, postingOffset := postings.length, numBlocks := bs.length, idf := idf } = bs := by
  unfold metaBlocks
  rw [List.drop_left, List.take_length]

theorem dictInsertOver_mem :
    ∀ (dict : List (List Nat × TermMeta)) (t : List Nat) (m : TermMeta)
      (p : List Nat × TermMeta), p ∈ dictInsertOver dict t m → p = (t, m) ∨ p ∈ dict := by
  intro dict
  induction dict with
  | nil => intro t m p hp; simp [dictInsertOver] at hp; exact Or.inl hp
  | cons q rest ih =>
    intro t m p hp
    obtain ⟨a, x⟩ := q
    by_cases ht : a = t
    · subst ht
      rw [show dictInsertOver ((a, x) :: rest) a m = (a, m) :: rest from by
        simp [dictInsertOver]] at hp
      rcases List.mem_cons.mp hp with hp | hp
      · exact Or.inl hp
      · exact Or.inr (List.mem_cons_of_mem _ hp)
    · rw [show dictInsertOver ((a, x) :: rest) t m = (a, x) :: dictInsertOver rest t m from by
        simp [dictInsertOver, ht]] at hp
      rcases List.mem_cons.mp hp with hp | hp
      · exact Or.inr (by simp [hp])
      · rcases ih t m p hp with h2 | h2
        · exact Or.inl h2
        · exact Or.inr (List.mem_cons_of_mem _ h2)

/-- Every term meta designates an in-range block run whose joined doc
ids are non-decreasing. -/
def bmwDictInv (postings : List PBlock) (dict : List (List Nat × TermMeta)) : Prop :=
  ∀ p ∈ dict, p.2.postingOffset + p.2.numBlocks ≤ postings.length ∧
    (blocksJoin (metaBlocks postings p.2)).Pairwise (fun a b => a ≤ b)

theorem foldAddTermB_inv (M : ScoreModel) (dls : List Nat) (tl n : Nat) :
    ∀ (tps : List (List Nat × List (Nat × Nat)))
      (st : List (List Nat × TermMeta) × List PBlock),
      bmwDictInv st.2 st.1 →
      (∀ tp ∈ tps, tp.2.Pairwise (fun a b => a.1 ≤ b.1)) →
      bmwDictInv (tps.foldl (addTermB M dls tl n) st).2
        (tps.foldl (addTermB M dls tl n) st).1 := by
  intro tps
  induction tps with
  | nil => intro st h _; exact h
  | cons tp rest ih =>
    intro st h hps
    simp only [List.foldl_cons]
    apply ih
    · intro p hp
      have haddp : (addTermB M dls tl n st tp).2 =
          st.2 ++ mkBlocks M dls tl n tp.2.length tp.2 := rfl
      unfold addTermB at hp
      rcases dictInsertOver_mem _ _ _ p hp with hp | hp
      · subst hp
        constructor
        · rw [haddp]
          simp
        · rw [haddp, metaBlocks_fresh]
          show (blocksJoin _).Pairwise _
          rw [mkBlocks_join]
          exact List.pairwise_map.mpr (hps tp (by simp))
      · have hold := h p hp
        constructor
        · rw [haddp]
          simp only [List.length_append]
          omega
        · rw [haddp, metaBlocks_append_of_le hold.1]
          exact hold.2
    · exact fun tp2 htp2 => hps tp2 (List.mem_cons_of_mem _ htp2)

theorem buildBlocks_inv (M : ScoreModel) {s : BmwState}
    (h : bmwDictInv s.postings s.termDict) :
    bmwDictInv (buildBlocks M s).postings (buildBlocks M s).termDict := by
  unfold buildBlocks
  split_ifs with hempty
  · exact h
  · refine foldAddTermB_inv M _ _ _ _ (s.termDict, s.postings) h ?_
    intro tp htp
    have h0 : postsInv s.docCount s.docCount ([] : List (List Nat × List (Nat × Nat))) := by
      intro q hq; simp at hq
    exact (termPostsFrom_inv s.pending [] s.docCount h0 le_rfl tp htp).1

/-- States reachable by the modelled bmw_simd operations. -/
inductive BmwReach (M : ScoreModel) : BmwState → Prop
  | empty : BmwReach M bmwEmpty
  | batch {s} (docs : List Doc) : BmwReach M s → BmwReach M (bmwIndexBatch s docs)
  | commit {s} : BmwReach M s → BmwReach M (bmwCommit M s)

theorem bmwReach_sorted {M : ScoreModel} {s : BmwState} (hr : BmwReach M s) :
    bmwDictInv s.postings s.termDict := by
  induction hr with
  | empty => intro p hp; simp [bmwEmpty] at hp
  | batch docs _ ih => exact ih
  | commit _ ih => exact buildBlocks_inv M ih

/-- C4: after any sequence of `index_batch` / `commit` operations from a
fresh engine, every posting list holds its entries with monotonically
non-decreasing doc ids, in all three modelled profiles: in the ultra
model the entries of every term's posting list (across all shards and
batch boundaries); in the bmw_simd model the joined doc ids of the block
run every term meta designates (each commit rebuilds a term's run from
posts collected in ascending doc order); in the ensemble model the
concatenated doc ids of every term's block sequence, across batch
boundaries where new blocks are merged onto existing ones. -/
theorem C4_posting_docids_monotone :
    (∀ (M : ScoreModel) (s : UltraState), UltraReach M s →
      ∀ p ∈ s.termDict, p.2.entries.Pairwise (fun a b => a.docId ≤ b.docId)) ∧
    (∀ (M : ScoreModel) (s : BmwState), BmwReach M s →
      ∀ p ∈ s.termDict,
        (blocksJoin (metaBlocks s.postings p.2)).Pairwise (fun a b => a ≤ b)) ∧
    (∀ (M : ScoreModel) (s : EnsState), EnsReach M s →
      ∀ p ∈ s.termPostings,
        ((p.2.blocks.map PBlock.docIds).flatten).Pairwise (fun a b => a ≤ b)) :=
  ⟨fun _ _ hr p hp => ((ultraReach_sorted hr) p hp).1,
    fun _ _ hr p hp => ((bmwReach_sorted hr) p hp).2,
    fun _ _ hr p hp => ((ensReach_sorted hr) p hp).1⟩

/-- C4 witness: the theorem applied to concrete two-batch histories of
all three profiles, at the posting list of the term `aa`. -/
theorem C4_witness :
    (∀ p ∈ (ultraCommit tfModel (ultraIndexBatch
        (ultraCommit tfModel (ultraIndexBatch ultraEmpty [⟨"1", strBytes "aa bb"⟩]))
        [⟨"2", strBytes "aa"⟩])).termDict,
      p.2.entries.Pairwise (fun a b => a.docId ≤ b.docId)) ∧
    (∀ p ∈ (bmwCommit tfModel (bmwIndexBatch
        (bmwCommit tfModel (bmwIndexBatch bmwEmpty [⟨"1", strBytes "aa bb"⟩]))
        [⟨"2", strBytes "aa"⟩])).termDict,
      (blocksJoin (metaBlocks (bmwCommit tfModel (bmwIndexBatch
        (bmwCommit tfModel (bmwIndexBatch bmwEmpty [⟨"1", strBytes "aa bb"⟩]))
        [⟨"2", strBytes "aa"⟩])).postings p.2)).Pairwise (fun a b => a ≤ b)) ∧
    (∀ p ∈ (ensCommit tfModel (ensIndexBatch
        (ensCommit tfModel (ensIndexBatch ensEmpty [⟨"1", strBytes "aa bb"⟩]))
        [⟨"2", strBytes "aa"⟩])).termPostings,
      ((p.2.blocks.map PBlock.docIds).flatten).Pairwise (fun a b => a ≤ b)) :=
  ⟨C4_posting_docids_monotone.1 tfModel _
      (UltraReach.commit (UltraReach.batch _ (UltraReach.commit
        (UltraReach.batch _ UltraReach.empty)))),
    C4_posting_docids_monotone.2.1 tfModel _
      (BmwReach.commit (BmwReach.batch _ (BmwReach.commit
        (BmwReach.batch _ BmwReach.empty)))),
    C4_posting_docids_monotone.2.2 tfModel _
      (EnsReach.commit (EnsReach.batch _ (EnsReach.commit
        (EnsReach.batch _ EnsReach.empty))))⟩

/-! ### Claim C9 -/

/-- Two committed documents both containing `alpha`. -/
def c9State : UltraState :=
  ultraCommit tfModel
    (ultraIndexBatch ultraEmpty [⟨"x", strBytes "alpha"⟩, ⟨"y", strBytes "alpha"⟩])

/-- C9 counterexample: with two scored candidates in the heap
(`search("alpha", 10, 0)` returns both), `search("alpha", 5, 2)` over the
same snapshot reports `total = 0` — the post-offset/limit hit count —
where the claim requires at least the heap candidate count 2. -/
theorem C9_counterexample_total_after_offset :
    ((ultraSearch tfModel c9State (strBytes "alpha") 10 0).toOption.map
      SearchResult.total) = some 2 ∧
    ((ultraSearch tfModel c9State (strBytes "alpha") 5 2).toOption.map
      SearchResult.total) = some 0 := by
  decide

/-- C9 (amended): in all three modelled profiles, the `total` field of a
search result equals the number of hits actually returned after `offset`
and `limit` are applied (`total = hits.len()` in the source). -/
theorem C9_total_is_returned_hits :
    (∀ (M : ScoreModel) (s : UltraState) (q : List Nat) (l o : Nat),
      ∃ r, ultraSearch M s q l o = Except.ok r ∧ r.total = r.hits.length) ∧
    (∀ (M : ScoreModel) (s : BmwState) (q : List Nat) (l o : Nat),
      ∃ r, bmwSearch M s q l o = Except.ok r ∧ r.total = r.hits.length) ∧
    (∀ (M : ScoreModel) (s : EnsState) (q : List Nat) (l o : Nat),
      ∃ r, ensSearch M s q l o = Except.ok r ∧ r.total = r.hits.length) :=
  ⟨fun _ _ _ _ _ => ⟨_, rfl, rfl⟩, fun _ _ _ _ _ => ⟨_, rfl, rfl⟩,
    fun _ _ _ _ _ => ⟨_, rfl, rfl⟩⟩

/-! ### Claim C10 -/

theorem ultraSearchFast_empty_cases (M : ScoreModel) (s : UltraState)
    (q : List Nat) (l o : Nat) (h : ultraTokenizeFast q = [] ∨ s.docCount = 0) :
    ultraSearchFast M s q l o = [] := by
  rcases h with h | h
  · simp [ultraSearchFast, h]
  · simp [ultraSearchFast, cabm_docCount, h]

theorem bmwSearchHits_empty_cases (M : ScoreModel) (s : BmwState)
    (qts : List (List Nat)) (l o : Nat) (h : qts = [] ∨ s.docCount = 0) :
    bmwSearchHits M s qts l o = [] := by
  rcases h with h | h <;> simp [bmwSearchHits, h]

theorem ensSearchHits_empty_cases (M : ScoreModel) (s : EnsState)
    (qts : List (List Nat)) (l o : Nat) (h : qts = [] ∨ s.docCount = 0) :
    ensSearchHits M s qts l o = [] := by
  rcases h with h | h <;> simp [ensSearchHits, h]

theorem dictFind_map_none (g : Nat × UPostingList → UPostingList) :
    ∀ (d : List (Nat × UPostingList)) (h : Nat), dictFind d h = none →
      dictFind (d.map fun p => (p.1, g p)) h = none := by
  intro d
  induction d with
  | nil => intro h _; rfl
  | cons q rest ih =>
    intro h hn
    obtain ⟨a, pl⟩ := q
    by_cases ha : a = h
    · exfalso
      rw [show dictFind ((a, pl) :: rest) h = some pl from by simp [dictFind, ha]] at hn
      exact Option.some_ne_none _ hn
    · rw [show dictFind ((a, pl) :: rest) h = dictFind rest h from by
        simp [dictFind, ha]] at hn
      simp only [List.map_cons]
      rw [show dictFind ((a, g (a, pl)) :: (rest.map fun p => (p.1, g p))) h =
        dictFind (rest.map fun p => (p.1, g p)) h from by simp [dictFind, ha]]
      exact ih h hn

theorem dictFind_cabm_none (M : ScoreModel) (s : UltraState) (h : Nat)
    (hn : dictFind s.termDict h = none) :
    dictFind (ultraComputeAllBlockMaxes M s).termDict h = none := by
  unfold ultraComputeAllBlockMaxes
  split_ifs <;>
    first
      | exact hn
      | exact dictFind_map_none _ s.termDict h hn

theorem ultraSearchFast_unmatched (M : ScoreModel) (s : UltraState)
    (q : List Nat) (l o : Nat)
    (h : ∀ t ∈ ultraTokenizeFast q, dictFind s.termDict t.1 = none) :
    ultraSearchFast M s q l o = [] := by
  have hfm : (ultraTokenizeFast q).filterMap (fun t =>
      (dictFind (ultraComputeAllBlockMaxes M s).termDict t.1).map
        fun pl => (pl, pl.idf * M.k1p1)) = [] := by
    apply List.filterMap_eq_nil_iff.mpr
    intro t ht
    rw [dictFind_cabm_none M s t.1 (h t ht)]
    rfl
  simp [ultraSearchFast, hfm]

theorem bmwSearchHits_unmatched (M : ScoreModel) (s : BmwState)
    (qts : List (List Nat)) (l o : Nat)
    (h : ∀ t ∈ qts, metaFind s.termDict t = none) :
    bmwSearchHits M s qts l o = [] := by
  have hfm : qts.filterMap (fun t =>
      (metaFind s.termDict t).map fun m => (m, m.idf * M.k1p1)) = [] := by
    apply List.filterMap_eq_nil_iff.mpr
    intro t ht
    rw [h t ht]
    rfl
  simp [bmwSearchHits, hfm]

theorem ensSearchHits_unmatched (M : ScoreModel) (s : EnsState)
    (qts : List (List Nat)) (l o : Nat)
    (h : ∀ t ∈ qts, cpostFind s.termPostings t = none) :
    ensSearchHits M s qts l o = [] := by
  have hfm : qts.filterMap (fun t =>
      (cpostFind s.termPostings t).map fun cp => (cp, cp.idf * M.k1p1)) = [] := by
    apply List.filterMap_eq_nil_iff.mpr
    intro t ht
    rw [h t ht]
    rfl
  simp [ensSearchHits, hfm]

/-- C10: in all three modelled profiles `search` is total — it always
returns `Ok` (the `NotReady`, `InvalidQuery` and `Internal` variants are
never constructed), and an empty-after-tokenization query, a search
against an engine with `doc_count = 0` (in particular a fresh engine with
no commit), or an unmatched query (none of whose tokens resolve to a
posting list in the term dictionary) each yield `Ok` with no hits and
`total = 0`. -/
theorem C10_search_always_ok :
    (∀ (M : ScoreModel) (s : UltraState) (q : List Nat) (l o : Nat),
      ∃ r, ultraSearch M s q l o = Except.ok r ∧
        (ultraTokenizeFast q = [] → r.hits = [] ∧ r.total = 0) ∧
        (s.docCount = 0 → r.hits = [] ∧ r.total = 0) ∧
        ((∀ t ∈ ultraTokenizeFast q, dictFind s.termDict t.1 = none) →
          r.hits = [] ∧ r.total = 0)) ∧
    (∀ (M : ScoreModel) (s : BmwState) (q : List Nat) (l o : Nat),
      ∃ r, bmwSearch M s q l o = Except.ok r ∧
        (FastTokenizer.mkDefault.tokenizeQuery q = [] → r.hits = [] ∧ r.total = 0) ∧
        (s.docCount = 0 → r.hits = [] ∧ r.total = 0) ∧
        ((∀ t ∈ FastTokenizer.mkDefault.tokenizeQuery q, metaFind s.termDict t = none) →
          r.hits = [] ∧ r.total = 0)) ∧
    (∀ (M : ScoreModel) (s : EnsState) (q : List Nat) (l o : Nat),
      ∃ r, ensSearch M s q l o = Except.ok r ∧
        (FastTokenizer.mkDefault.tokenizeQuery q = [] → r.hits = [] ∧ r.total = 0) ∧
        (s.docCount = 0 → r.hits = [] ∧ r.total = 0) ∧
        ((∀ t ∈ FastTokenizer.mkDefault.tokenizeQuery q, cpostFind s.termPostings t = none) →
          r.hits = [] ∧ r.total = 0)) := by
  refine ⟨fun M s q l o => ⟨_, rfl, ?_, ?_, ?_⟩, fun M s q l o => ⟨_, rfl, ?_, ?_, ?_⟩,
    fun M s q l o => ⟨_, rfl, ?_, ?_, ?_⟩⟩ <;> intro h
  · have := ultraSearchFast_empty_cases M s q l o (Or.inl h)
    simp [ultraSearch, this]
  · have := ultraSearchFast_empty_cases M s q l o (Or.inr h)
    simp [ultraSearch, this]
  · have := ultraSearchFast_unmatched M s q l o h
    simp [ultraSearch, this]
  · have := bmwSearchHits_empty_cases M s (FastTokenizer.mkDefault.tokenizeQuery q) l o
      (Or.inl h)
    simp [bmwSearch, this]
  · have := bmwSearchHits_empty_cases M s (FastTokenizer.mkDefault.tokenizeQuery q) l o
      (Or.inr h)
    simp [bmwSearch, this]
  · have := bmwSearchHits_unmatched M s (FastTokenizer.mkDefault.tokenizeQuery q) l o h
    simp [bmwSearch, this]
  · have := ensSearchHits_empty_cases M s (FastTokenizer.mkDefault.tokenizeQuery q) l o
      (Or.inl h)
    simp [ensSearch, this]
  · have := ensSearchHits_empty_cases M s (FastTokenizer.mkDefault.tokenizeQuery q) l o
      (Or.inr h)
    simp [ensSearch, this]
  · have := ensSearchHits_unmatched M s (FastTokenizer.mkDefault.tokenizeQuery q) l o h
    simp [ensSearch, this]

/-- A committed ultra engine holding one document containing `alpha`,
used to exercise the unmatched-query clause. -/
def c10State : UltraState :=
  ultraCommit tfModel (ultraIndexBatch ultraEmpty [⟨"x", strBytes "alpha"⟩])

/-- C10 witness: the theorem applied to a fresh ultra engine with an
empty query string, and to a committed non-empty ultra engine with the
unmatched query `beta`. -/
theorem C10_witness :
    (∃ r, ultraSearch tfModel ultraEmpty (strBytes "") 10 0 = Except.ok r ∧
      r.hits = [] ∧ r.total = 0) ∧
    (∃ r, ultraSearch tfModel c10State (strBytes "beta") 10 0 = Except.ok r ∧
      r.hits = [] ∧ r.total = 0) := by
  constructor
  · obtain ⟨r, hok, h1, h2, h3⟩ :=
      C10_search_always_ok.1 tfModel ultraEmpty (strBytes "") 10 0
    exact ⟨r, hok, h2 rfl⟩
  · obtain ⟨r, hok, h1, h2, h3⟩ :=
      C10_search_always_ok.1 tfModel c10State (strBytes "beta") 10 0
    exact ⟨r, hok, h3 (by decide)⟩
